import Mathlib

/-!
Verification of the jobflow workflow-engine specification.

The engine core (OutputReference, JobStore, Job, Flow, Response, and the
sequential run-locally scheduler) is embedded shallowly below.  The repository
sources shipped here contain only the tutorial notebooks and CI workflows, so
the engine itself is modelled from the specification text; each such
definition carries a doc comment starting with `Modelled from the spec:`.
-/

set_option maxHeartbeats 1000000

namespace Jobflow

/-- Modelled from the spec: one element of an OutputReference `path` — an
attribute lookup (string key) or an index lookup (integer). -/
inductive PathStep where
  | attr (s : String)
  | idx (n : Nat)
deriving DecidableEq, Repr

/-- Modelled from the spec: an OutputReference is a pair `(uuid, path)` where
`path` is an ordered sequence of attribute/index lookups.  Uuids are modelled
as natural numbers.  Equality is structural (value equality). -/
structure OutputReference where
  uuid : Nat
  path : List PathStep
deriving DecidableEq, Repr

/-- Modelled from the spec: attribute access on a reference yields a new
reference with the access appended to the path; no evaluation occurs. -/
def OutputReference.getattr (r : OutputReference) (a : String) : OutputReference :=
  ⟨r.uuid, r.path ++ [PathStep.attr a]⟩

/-- Modelled from the spec: index access on a reference yields a new reference
with the access appended to the path; no evaluation occurs. -/
def OutputReference.getitem (r : OutputReference) (n : Nat) : OutputReference :=
  ⟨r.uuid, r.path ++ [PathStep.idx n]⟩

/-- Descend from a reference along a whole attribute/index path, one lazy
access at a time. -/
def OutputReference.descend (r : OutputReference) (p : List PathStep) : OutputReference :=
  p.foldl (fun r' s => match s with
    | PathStep.attr a => r'.getattr a
    | PathStep.idx n => r'.getitem n) r

/-- Modelled from the spec: the self-describing serialized value tree.
Sequences are encoded as `vnil`/`vcons` chains and string-keyed mappings as
`dnil`/`dcons` chains so that every traversal is plain structural recursion.
`vref` embeds an OutputReference (the typed-object wire form) and `vblob` is
the blob marker `(blob_uuid, store)` left behind by multi-store routing. -/
inductive Val where
  | vnull
  | vint (n : Int)
  | vstr (s : String)
  | vbool (b : Bool)
  | vref (r : OutputReference)
  | vblob (blobUuid : Nat) (store : String)
  | vnil
  | vcons (head tail : Val)
  | dnil
  | dcons (key : String) (value rest : Val)
deriving DecidableEq, Repr

/-- Index lookup into a `vcons` sequence. -/
def valIdx : Val → Nat → Option Val
  | Val.vcons h _, 0 => some h
  | Val.vcons _ t, n + 1 => valIdx t n
  | _, _ => none

/-- Key lookup into a `dcons` mapping. -/
def valAttr : Val → String → Option Val
  | Val.dcons k v r, a => if k = a then some v else valAttr r a
  | _, _ => none

/-- Modelled from the spec: dereferencing a fetched value along a path — for
an integer step index into the sequence, for a string step look up the key;
any invalid step makes resolution fail. -/
def derefPath : Val → List PathStep → Option Val
  | v, [] => some v
  | v, PathStep.attr a :: p => (valAttr v a).bind (fun v' => derefPath v' p)
  | v, PathStep.idx n :: p => (valIdx v n).bind (fun v' => derefPath v' p)

/-- Modelled from the spec (find_refs): all uuids of OutputReferences
reachable anywhere inside a serialized tree. -/
def refUuids : Val → List Nat
  | Val.vref r => [r.uuid]
  | Val.vcons h t => refUuids h ++ refUuids t
  | Val.dcons _ v r => refUuids v ++ refUuids r
  | _ => []

/-- Modelled from the spec (resolve_refs): replace every reference in a tree
by the value obtained from the environment, dereferencing the reference path;
fails if any reference cannot be resolved. -/
def resolveVal (env : Nat → Option Val) : Val → Option Val
  | Val.vref r => (env r.uuid).bind (fun v => derefPath v r.path)
  | Val.vcons h t =>
      match resolveVal env h, resolveVal env t with
      | some h', some t' => some (Val.vcons h' t')
      | _, _ => none
  | Val.dcons k v r =>
      match resolveVal env v, resolveVal env r with
      | some v', some r' => some (Val.dcons k v' r')
      | _, _ => none
  | v => some v

/-- True when a tree contains no blob marker. -/
def noBlob : Val → Bool
  | Val.vblob _ _ => false
  | Val.vcons h t => noBlob h && noBlob t
  | Val.dcons _ v r => noBlob v && noBlob r
  | _ => true

/-- Modelled from the spec: the error kinds raised by the engine that the
claims exercise — OutputNotFoundError, UnresolvableGraphError, and the two
GraphConstructionError cases of `Flow.add` (duplicate parent, introduced
cycle).  `outOfFuel` is an artifact of the bounded recursion used by the
embedded scheduler; `run_locally` always supplies enough fuel. -/
inductive JFError where
  | outputNotFound
  | unresolvableGraph
  | graphHasParent
  | graphCycle
  | outOfFuel
deriving DecidableEq, Repr

/-- Modelled from the spec: the main-store record for an executed
`(uuid, index)` — the spec's `{uuid, index, output, name, metadata, hosts,
completed_at}` restricted to the fields the claims observe. -/
structure MainRecord where
  uuid : Nat
  index : Nat
  output : Val
deriving DecidableEq, Repr

/-- Modelled from the spec: an auxiliary-store record, keyed by the blob uuid
together with the auxiliary store's name. -/
structure BlobRecord where
  store : String
  blobUuid : Nat
  value : Val
deriving DecidableEq, Repr

/-- Modelled from the spec: a JobStore routes over one main store and named
auxiliary stores; `nextBlob` supplies fresh blob uuids. -/
structure JobStore where
  main : List MainRecord
  aux : List BlobRecord
  nextBlob : Nat
deriving DecidableEq, Repr

/-- The default in-memory store used when the caller supplies none. -/
def emptyStore : JobStore := ⟨[], [], 0⟩

/-- Key lookup in a routing table `store_names` (modelled as exact-key
matching, the unambiguous core of the spec's pattern grammar). -/
def lookupStr (k : String) : List (String × String) → Option String
  | [] => none
  | (k', s) :: rest => if k' = k then some s else lookupStr k rest

/-- Modelled from the spec: walk the output tree; every subtree whose
enclosing key matches the routing table is replaced in place by a blob marker
carrying a fresh blob uuid, and the original subtree is emitted as a record
for the named auxiliary store.  Returns the rewritten tree, the new auxiliary
records, and the advanced fresh-uuid counter. -/
def routeVal (sn : List (String × String)) : Val → Nat → Val × List BlobRecord × Nat
  | Val.dcons k v rest, c =>
      match lookupStr k sn with
      | some storeName =>
          let res := routeVal sn rest (c + 1)
          (Val.dcons k (Val.vblob c storeName) res.1, ⟨storeName, c, v⟩ :: res.2.1, res.2.2)
      | none =>
          let rv := routeVal sn v c
          let rr := routeVal sn rest rv.2.2
          (Val.dcons k rv.1 rr.1, rv.2.1 ++ rr.2.1, rr.2.2)
  | Val.vcons h t, c =>
      let rh := routeVal sn h c
      let rt := routeVal sn t rh.2.2
      (Val.vcons rh.1 rt.1, rh.2.1 ++ rt.2.1, rt.2.2)
  | v, c => (v, [], c)

/-- Modelled from the spec: `save` rewrites the output through the routing
table, persists the routed subtrees to the auxiliary stores, and inserts the
main record `{uuid, index, output := rewritten tree}`. -/
def JobStore.save (s : JobStore) (u i : Nat) (output : Val)
    (sn : List (String × String)) : JobStore :=
  let res := routeVal sn output s.nextBlob
  ⟨⟨u, i, res.1⟩ :: s.main, res.2.1 ++ s.aux, res.2.2⟩

/-- Look up an auxiliary record by store name and blob uuid. -/
def auxLookup (aux : List BlobRecord) (storeName : String) (bu : Nat) : Option Val :=
  (aux.find? (fun b => b.store = storeName ∧ b.blobUuid = bu)).map BlobRecord.value

/-- Modelled from the spec: expansion during `get_output` — each blob marker
is substituted by the matching auxiliary record's value; markers with no
matching record remain in place. -/
def loadBlobs (aux : List BlobRecord) : Val → Val
  | Val.vblob bu storeName =>
      match auxLookup aux storeName bu with
      | some v => v
      | none => Val.vblob bu storeName
  | Val.vcons h t => Val.vcons (loadBlobs aux h) (loadBlobs aux t)
  | Val.dcons k v r => Val.dcons k (loadBlobs aux v) (loadBlobs aux r)
  | v => v

/-- The highest index among the main records stored for a uuid, if any. -/
def bestIndex (u : Nat) : List MainRecord → Option Nat
  | [] => none
  | r :: rest =>
      match bestIndex u rest with
      | none => if r.uuid = u then some r.index else none
      | some m => if r.uuid = u then some (max r.index m) else some m

/-- The main record stored for `(uuid, index)`, if any. -/
def JobStore.lookupMain (s : JobStore) (u i : Nat) : Option MainRecord :=
  s.main.find? (fun r => r.uuid = u ∧ r.index = i)

/-- Modelled from the spec: `get_output` for a uuid and optional index
(default: the highest index known); absent records fail with
OutputNotFoundError; with `load` the stored tree is expanded by substituting
blob markers from the auxiliary stores. -/
def JobStore.get_output (s : JobStore) (u : Nat) (index? : Option Nat)
    (load : Bool) : Except JFError Val :=
  match (match index? with
         | some i => some i
         | none => bestIndex u s.main) with
  | none => Except.error JFError.outputNotFound
  | some i =>
      match s.lookupMain u i with
      | none => Except.error JFError.outputNotFound
      | some r => Except.ok (if load then loadBlobs s.aux r.output else r.output)

/-- Modelled from the spec: the body of a Job is an opaque callable; the
embedding gives callables first-order syntax.  `addF` sums integer arguments
(failing on non-integers, like the tutorial's `add`), `constF` returns a
fixed value, `respF` returns a full Response with the given control flags,
and `failF` raises. -/
inductive Fn where
  | addF
  | constF (v : Val)
  | respF (out : Val) (stopChildren stopJobflow : Bool)
  | failF
deriving DecidableEq, Repr

/-- Modelled from the spec: the Response handed from a Job body to the
scheduler.  Of the spec's fields the claims exercise `output`,
`stop_children` and `stop_jobflow`; `detour`, `addition`, `replace` and
`stored_data` are omitted (no claim reaches them). -/
structure Response where
  output : Val
  stopChildren : Bool
  stopJobflow : Bool
deriving DecidableEq, Repr

/-- Sum a list of integer values; `none` on any non-integer. -/
def sumInts : List Val → Option Int
  | [] => some 0
  | Val.vint n :: rest => (sumInts rest).map (fun m => n + m)
  | _ => none

/-- Modelled from the spec: invoke the underlying callable on resolved
arguments; a plain return value is wrapped as `Response{output=value}`,
a returned Response is used verbatim, and `none` models an unrecovered
error raised by the body. -/
def Fn.run : Fn → List Val → Option Response
  | Fn.addF, vals => (sumInts vals).map (fun n => ⟨Val.vint n, false, false⟩)
  | Fn.constF v, _ => some ⟨v, false, false⟩
  | Fn.respF out sc sj, _ => some ⟨out, sc, sj⟩
  | Fn.failF, _ => none

/-- Modelled from the spec: a Job is a deferred call with identity
`(uuid, index)`, a display name, the callable, arguments that may contain
OutputReferences arbitrarily nested, and the stack of enclosing Flow uuids. -/
structure Job where
  uuid : Nat
  index : Nat
  name : String
  fn : Fn
  args : List Val
  hosts : List Nat
deriving DecidableEq, Repr

/-- Modelled from the spec: `Job.output` is an OutputReference to this Job's
uuid with empty path. -/
def Job.output (j : Job) : OutputReference := ⟨j.uuid, []⟩

/-- All reference uuids inside a list of argument trees. -/
def refUuidsList : List Val → List Nat
  | [] => []
  | v :: rest => refUuids v ++ refUuidsList rest

/-- Modelled from the spec (`input_uuids`): the uuids of all
OutputReferences reachable in a Job's arguments. -/
def argUuids (j : Job) : List Nat := refUuidsList j.args

/-- Resolve every reference in a list of argument trees. -/
def resolveArgs (env : Nat → Option Val) : List Val → Option (List Val)
  | [] => some []
  | v :: rest =>
      match resolveVal env v, resolveArgs env rest with
      | some v', some rest' => some (v' :: rest')
      | _, _ => none

mutual
/-- Modelled from the spec: a Flow is a composite node — identity plus an
ordered sequence of children; `hostF` is the uuid of the owning parent Flow,
if any (ownership is exclusive). -/
inductive Flow where
  | mk (uuid : Nat) (hostF : Option Nat) (children : List FlowChild)

/-- Modelled from the spec: a Flow child is a Job or a sub-Flow. -/
inductive FlowChild where
  | jobC (j : Job)
  | flowC (f : Flow)
end

mutual
/-- All Jobs transitively contained in a Flow, in insertion order. -/
def Flow.allJobs : Flow → List Job
  | Flow.mk _ _ cs => allJobsChildren cs

def allJobsChildren : List FlowChild → List Job
  | [] => []
  | FlowChild.jobC j :: rest => j :: allJobsChildren rest
  | FlowChild.flowC f :: rest => f.allJobs ++ allJobsChildren rest
end

/-- Modelled from the spec: whether a prospective child already has a parent
(a Job records its enclosing Flows in `hosts`; a Flow records its owner). -/
def hasParentC : FlowChild → Bool
  | FlowChild.jobC j => !j.hosts.isEmpty
  | FlowChild.flowC (Flow.mk _ h _) => h.isSome

/-- Record the adopting Flow's uuid on the child. -/
def setParentC (c : FlowChild) (u : Nat) : FlowChild :=
  match c with
  | FlowChild.jobC j => FlowChild.jobC { j with hosts := [u] }
  | FlowChild.flowC (Flow.mk fu _ cs) => FlowChild.flowC (Flow.mk fu (some u) cs)

/-- A Job with no unsatisfied dependency inside the list: every uuid it
references is its own or belongs to no Job in the list. -/
def noDeps (l : List Job) (j : Job) : Bool :=
  l.all (fun a => a.uuid = j.uuid ∨ a.uuid ∉ argUuids j)

/-- Kahn-style acyclicity check: repeatedly peel a Job whose in-list
dependencies are exhausted; acyclic iff everything is peeled. -/
def acyclicAux : Nat → List Job → Bool
  | 0, l => l.isEmpty
  | fuel + 1, l =>
      match l.find? (noDeps l) with
      | none => l.isEmpty
      | some j => acyclicAux fuel (l.erase j)

/-- The induced job-dependency graph of a job list is acyclic. -/
def acyclicB (l : List Job) : Bool := acyclicAux l.length l

/-- The candidate Flow obtained by appending a child (with its parent set). -/
def Flow.withChild : Flow → FlowChild → Flow
  | Flow.mk u h cs, c => Flow.mk u h (cs ++ [setParentC c u])

/-- Modelled from the spec: `Flow.add` appends a Job or sub-Flow; it fails if
the child already has a parent or if a dependency cycle would be introduced,
and otherwise appends the child and records the ownership. -/
def Flow.add (f : Flow) (c : FlowChild) : Except JFError Flow :=
  if hasParentC c then Except.error JFError.graphHasParent
  else
    let f' := f.withChild c
    if acyclicB f'.allJobs then Except.ok f' else Except.error JFError.graphCycle

/-- An entry of the scheduler's execution log: a Job `(uuid, index)` starting,
or finishing (its output persisted). -/
inductive Event where
  | start (u i : Nat)
  | finish (u i : Nat)
deriving DecidableEq, Repr

/-- Modelled from the spec: the per-Job outcome surfaced by the run-locally
entry point — `done` with the Job's Response, `cancelled` (skipped), or
`failed`. -/
inductive Outcome where
  | done (r : Response)
  | cancelled
  | failed
deriving DecidableEq, Repr

/-- The scheduler's running state: the Jobs not yet dealt with (insertion
order), the bookkeeping sets of the spec's algorithm (`done`, `failed`,
`cancelled`, and the uuids whose Responses requested stop_children), the
JobStore, the response mapping built so far, and the execution log. -/
structure RunState where
  pending : List Job
  doneU : List Nat
  failedU : List Nat
  cancelledU : List Nat
  stoppedU : List Nat
  store : JobStore
  responses : List (Nat × Nat × Outcome)
  trace : List Event
deriving Repr

/-- Uuids whose dependants must be skipped: failed Jobs, cancelled Jobs, and
Jobs that requested stop_children. -/
def RunState.badU (st : RunState) : List Nat :=
  st.failedU ++ st.cancelledU ++ st.stoppedU

/-- A pending Job that references a failed, cancelled or stopped uuid; it can
never run and is recorded as cancelled. -/
def blockedB (st : RunState) (j : Job) : Bool :=
  (argUuids j).any (fun u => u ∈ st.badU)

/-- Modelled from the spec: a Job is ready when every uuid it references is
completed, or is a prior uuid external to the running graph. -/
def isReadyB (st : RunState) (j : Job) : Bool :=
  (argUuids j).all (fun u => u ∈ st.doneU ∨ st.pending.all (fun p => p.uuid ≠ u))

/-- Split a list at its first element satisfying the predicate. -/
def extractFirst (p : α → Bool) : List α → Option (List α × α × List α)
  | [] => none
  | x :: xs =>
      if p x then some ([], x, xs)
      else (extractFirst p xs).map (fun y => (x :: y.1, y.2.1, y.2.2))

/-- The resolution environment of the spec's step 3: references are resolved
by querying `store.get_output` at the referenced uuid (default index, with
expansion). -/
def envOf (st : RunState) : Nat → Option Val :=
  fun u => (st.store.get_output u none true).toOption

/-- The state after recording a Job as cancelled (skipped): the Job leaves
the pending list, its uuid joins `cancelled`, and a cancelled entry is added
to the response mapping; it is never started. -/
def stCancel (st : RunState) (j : Job) (np : List Job) : RunState :=
  { st with pending := np,
            cancelledU := j.uuid :: st.cancelledU,
            responses := st.responses ++ [(j.uuid, j.index, Outcome.cancelled)] }

/-- The state after a Job fails (reference resolution or the body raised):
the start event is logged, the uuid joins `failed`, and a failed entry is
recorded; nothing is persisted. -/
def stFail (st : RunState) (j : Job) (np : List Job) : RunState :=
  { st with pending := np,
            failedU := j.uuid :: st.failedU,
            responses := st.responses ++ [(j.uuid, j.index, Outcome.failed)],
            trace := st.trace ++ [Event.start j.uuid j.index] }

/-- The state after a Job completes: both events are logged, the output is
persisted under `(uuid, index)`, the uuid joins `done` (and the stop set if
the Response requested stop_children), and a done entry is recorded. -/
def stSucc (st : RunState) (j : Job) (np : List Job) (resp : Response) : RunState :=
  { st with pending := np,
            doneU := j.uuid :: st.doneU,
            stoppedU := if resp.stopChildren then j.uuid :: st.stoppedU else st.stoppedU,
            store := st.store.save j.uuid j.index resp.output [],
            responses := st.responses ++ [(j.uuid, j.index, Outcome.done resp)],
            trace := st.trace ++ [Event.start j.uuid j.index, Event.finish j.uuid j.index] }

/-- Modelled from the spec (scheduler loop body, steps 3–8 for one Job):
resolve the references in the Job's arguments through `store.get_output`,
invoke the callable, persist the output, record the Response (or the
failure), log the events, and mark the stop_children request.  Returns the
new state and whether stop_jobflow was requested. -/
def execJob (st : RunState) (j : Job) (np : List Job) : RunState × Bool :=
  match resolveArgs (envOf st) j.args with
  | none => (stFail st j np, false)
  | some vals =>
      match j.fn.run vals with
      | none => (stFail st j np, false)
      | some resp => (stSucc st j np resp, resp.stopJobflow)

/-- Modelled from the spec (step 7): marking all transitive downstream Jobs
of the stopped/failed/cancelled uuids as cancelled — every pending Job
blocked by such a uuid is recorded as cancelled, the cancellation itself
propagating transitively; run to a fixpoint before the scheduler halts on
stop_jobflow, so the step-7 cancellations precede the step-8 break. -/
def drain : Nat → RunState → RunState
  | 0, st => st
  | fuel + 1, st =>
      match extractFirst (blockedB st) st.pending with
      | some y => drain fuel (stCancel st y.2.1 (y.1 ++ y.2.2))
      | none => st

/-- Modelled from the spec (scheduler loop): first skip (record as
cancelled) any pending Job that references a failed, cancelled or stopped
uuid; otherwise pop the first ready Job in insertion order and run it; if it
requested stop_jobflow, first record the step-7 downstream cancellations and
then halt; with no ready Job left a nonempty graph is stalled
(UnresolvableGraphError). -/
def runSched : Nat → RunState → Except JFError (List (Nat × Nat × Outcome) × JobStore × List Event)
  | 0, st =>
      if st.pending.isEmpty then Except.ok (st.responses, st.store, st.trace)
      else Except.error JFError.outOfFuel
  | fuel + 1, st =>
      match extractFirst (blockedB st) st.pending with
      | some y => runSched fuel (stCancel st y.2.1 (y.1 ++ y.2.2))
      | none =>
          match extractFirst (isReadyB st) st.pending with
          | some y =>
              match execJob st y.2.1 (y.1 ++ y.2.2) with
              | (st2, true) =>
                  Except.ok ((drain st2.pending.length st2).responses,
                    (drain st2.pending.length st2).store,
                    (drain st2.pending.length st2).trace)
              | (st2, false) => runSched fuel st2
          | none =>
              if st.pending.isEmpty then Except.ok (st.responses, st.store, st.trace)
              else Except.error JFError.unresolvableGraph

/-- The scheduler state at the start of a run. -/
def initState (jobs : List Job) (store : JobStore) : RunState :=
  ⟨jobs, [], [], [], [], store, [], []⟩

/-- Modelled from the spec: the run-locally entry point — takes a Flow and an
optional JobStore (defaulting to the in-memory store) and drives the
scheduler over all transitively contained Jobs; returns the response mapping
`uuid → index → outcome` together with the final store and the execution
log. -/
def run_locally (f : Flow) (store? : Option JobStore) :
    Except JFError (List (Nat × Nat × Outcome) × JobStore × List Event) :=
  runSched f.allJobs.length (initState f.allJobs (store?.getD emptyStore))

/-- The job `a = add(1, 5)` of scenario S1, with uuid U1 = 1. -/
def s1a : Job := ⟨1, 1, "add", Fn.addF, [Val.vint 1, Val.vint 5], []⟩

/-- The job `b = add(a.output, 3)` of scenario S1, with uuid U2 = 2. -/
def s1b : Job := ⟨2, 1, "add", Fn.addF, [Val.vref s1a.output, Val.vint 3], []⟩

/-- The flow `Flow([a, b])` of scenario S1. -/
def s1flow : Flow := Flow.mk 100 none [FlowChild.jobC s1a, FlowChild.jobC s1b]

/-- The large value of scenario S6. -/
def s6big : Val := Val.vcons (Val.vint 11) (Val.vcons (Val.vint 22) Val.vnil)

/-- The output `{"big": <large>, "small": 1}` of scenario S6. -/
def s6doc : Val := Val.dcons "big" s6big (Val.dcons "small" (Val.vint 1) Val.dnil)

/-- S6's main record after routing: the "big" subtree replaced by a blob
marker pointing at the auxiliary store "blobs". -/
def s6routed : Val :=
  Val.dcons "big" (Val.vblob 0 "blobs") (Val.dcons "small" (Val.vint 1) Val.dnil)

/-- The scheduler invariant tying a reachable state to the initial job list
`jobs0` and initial store `store0`: pending jobs come from the flow; response
keys come from the flow's jobs and mention each uuid at most once (counting
jobs still pending); every job is either pending or answered; the main store
holds exactly the initial records plus one record per done response; events
are backed by responses; and the bookkeeping sets match the recorded
outcomes. -/
structure SchedInv (jobs0 : List Job) (store0 : JobStore) (st : RunState) : Prop where
  pend_sub : ∀ j ∈ st.pending, j ∈ jobs0
  keys_from : ∀ e ∈ st.responses, ∃ j, j ∈ jobs0 ∧ e.1 = j.uuid ∧ e.2.1 = j.index
  nodup_all : (st.responses.map (fun e => e.1) ++ st.pending.map Job.uuid).Nodup
  acct : ∀ j ∈ jobs0, j ∈ st.pending ∨ ∃ o, (j.uuid, j.index, o) ∈ st.responses
  store_char : ∀ mrec : MainRecord, mrec ∈ st.store.main ↔
    (mrec ∈ store0.main ∨
      ∃ resp, (mrec.uuid, mrec.index, Outcome.done resp) ∈ st.responses ∧
        mrec.output = resp.output)
  start_resp : ∀ u i, Event.start u i ∈ st.trace →
    ∃ o, (u, i, o) ∈ st.responses ∧ o ≠ Outcome.cancelled
  finish_resp : ∀ u i, Event.finish u i ∈ st.trace →
    ∃ resp, (u, i, Outcome.done resp) ∈ st.responses
  done_resp : ∀ u ∈ st.doneU, ∃ i resp, (u, i, Outcome.done resp) ∈ st.responses
  done_finish : ∀ u ∈ st.doneU, ∃ i, Event.finish u i ∈ st.trace
  resp_class : ∀ u i o, (u, i, o) ∈ st.responses →
    ((∃ resp, o = Outcome.done resp) ∧ u ∈ st.doneU) ∨
    (o = Outcome.cancelled ∧ u ∈ st.cancelledU) ∨
    (o = Outcome.failed ∧ u ∈ st.failedU)
  class_resp : ∀ u, (u ∈ st.doneU ∨ u ∈ st.cancelledU ∨ u ∈ st.failedU) →
    ∃ i o, (u, i, o) ∈ st.responses
  stopped_done : ∀ u ∈ st.stoppedU, u ∈ st.doneU
  stop_resp : ∀ u i resp, (u, i, Outcome.done resp) ∈ st.responses →
    resp.stopChildren = true → u ∈ st.stoppedU

/-- What a finished successful run guarantees about its results: response
keys come from the flow's jobs, mention each uuid at most once, and — unless
some Response requested stop_jobflow — cover every job of the flow; the main
store holds the initial records plus exactly the done outputs; and only jobs
with a non-cancelled outcome ever started. -/
structure FinalProps (jobs0 : List Job) (store0 : JobStore)
    (r : List (Nat × Nat × Outcome)) (s' : JobStore) (t : List Event) : Prop where
  keys_from : ∀ e ∈ r, ∃ j, j ∈ jobs0 ∧ e.1 = j.uuid ∧ e.2.1 = j.index
  uuid_nodup : (r.map (fun e => e.1)).Nodup
  complete : (∀ u i resp, (u, i, Outcome.done resp) ∈ r → resp.stopJobflow = false) →
    ∀ j ∈ jobs0, ∃ o, (j.uuid, j.index, o) ∈ r
  store_char : ∀ mrec : MainRecord, mrec ∈ s'.main ↔
    (mrec ∈ store0.main ∨
      ∃ resp, (mrec.uuid, mrec.index, Outcome.done resp) ∈ r ∧
        mrec.output = resp.output)
  start_resp : ∀ u i, Event.start u i ∈ t →
    ∃ o, (u, i, o) ∈ r ∧ o ≠ Outcome.cancelled

/-- A two-job flow used to witness the response-mapping shape: one constant
job and one job consuming its output. -/
def w2a : Job := ⟨21, 1, "one", Fn.constF (Val.vint 1), [], []⟩

def w2b : Job := ⟨22, 1, "two", Fn.constF (Val.vint 2), [Val.vref ⟨21, []⟩], []⟩

def w2flow : Flow := Flow.mk 200 none [FlowChild.jobC w2a, FlowChild.jobC w2b]

/-- The response mapping produced by running `w2flow`. -/
def w2r : List (Nat × Nat × Outcome) :=
  [(21, 1, Outcome.done ⟨Val.vint 1, false, false⟩),
   (22, 1, Outcome.done ⟨Val.vint 2, false, false⟩)]

/-- `Downstream jobs a b`: Job b is transitively downstream of Job a inside
the job list — b's arguments reference a, or b references some Job that is
itself downstream of a. -/
inductive Downstream (jobs : List Job) (a : Job) : Job → Prop where
  | direct (b : Job) : b ∈ jobs → a.uuid ∈ argUuids b → Downstream jobs a b
  | step (b c : Job) : Downstream jobs a b → c ∈ jobs → b.uuid ∈ argUuids c →
      Downstream jobs a c

/-- The stop_children invariant for a distinguished Job A: every Job
downstream of A is still pending or already recorded as cancelled, and A
itself is pending or classified (stopped after completing, failed, or
cancelled). -/
def St8 (jobs0 : List Job) (A : Job) (st : RunState) : Prop :=
  (∀ B, Downstream jobs0 A B →
    (B ∈ st.pending ∨
      ((B.uuid, B.index, Outcome.cancelled) ∈ st.responses ∧ B.uuid ∈ st.cancelledU))) ∧
  (A ∈ st.pending ∨ A.uuid ∈ st.stoppedU ∨ A.uuid ∈ st.failedU ∨ A.uuid ∈ st.cancelledU)

/-- The jobs of the stop_children witness scenario (S5 extended by one more
downstream level): wA stops its children, wB references wA, wC references
wB. -/
def w8A : Job := ⟨31, 1, "stopper", Fn.respF (Val.vint 7) true false, [], []⟩

def w8B : Job := ⟨32, 1, "child", Fn.constF (Val.vint 1), [Val.vref ⟨31, []⟩], []⟩

def w8C : Job := ⟨33, 1, "grandchild", Fn.constF (Val.vint 2), [Val.vref ⟨32, []⟩], []⟩

def w8flow : Flow :=
  Flow.mk 300 none [FlowChild.jobC w8A, FlowChild.jobC w8B, FlowChild.jobC w8C]

/-- The response mapping produced by running `w8flow`. -/
def w8r : List (Nat × Nat × Outcome) :=
  [(31, 1, Outcome.done ⟨Val.vint 7, true, false⟩),
   (32, 1, Outcome.cancelled), (33, 1, Outcome.cancelled)]

/-- The dual-flag variant of the stop_children scenario: the stopper also
requests stop_jobflow, so the step-7 downstream cancellations must be
recorded before the step-8 halt. -/
def z8A : Job := ⟨31, 1, "stopper", Fn.respF (Val.vint 7) true true, [], []⟩

def z8flow : Flow :=
  Flow.mk 300 none [FlowChild.jobC z8A, FlowChild.jobC w8B, FlowChild.jobC w8C]

/-- The response mapping produced by running `z8flow`. -/
def z8r : List (Nat × Nat × Outcome) :=
  [(31, 1, Outcome.done ⟨Val.vint 7, true, true⟩),
   (32, 1, Outcome.cancelled), (33, 1, Outcome.cancelled)]

/-- The uuid carried by an execution-log event. -/
def eventUuid : Event → Nat
  | Event.start u _ => u
  | Event.finish u _ => u

/-- The jobs of the insertion-order counterexample: c4A is inserted first
but depends on c4X, which is inserted last; c4C is independent of c4A. -/
def c4A : Job := ⟨41, 1, "late", Fn.constF (Val.vint 1), [Val.vref ⟨43, []⟩], []⟩

def c4C : Job := ⟨42, 1, "early", Fn.constF (Val.vint 2), [], []⟩

def c4X : Job := ⟨43, 1, "x", Fn.constF (Val.vint 3), [], []⟩

def c4flow : Flow :=
  Flow.mk 400 none [FlowChild.jobC c4A, FlowChild.jobC c4C, FlowChild.jobC c4X]

/-- The execution log produced by running `c4flow`. -/
def c4t : List Event :=
  [Event.start 42 1, Event.finish 42 1, Event.start 43 1, Event.finish 43 1,
   Event.start 41 1, Event.finish 41 1]

/-- Two independent, immediately-ready jobs witnessing insertion order. -/
def w4a : Job := ⟨51, 1, "first", Fn.constF (Val.vint 1), [], []⟩

def w4b : Job := ⟨52, 1, "second", Fn.constF (Val.vint 2), [], []⟩

/-- The job-dependency edge: `Edge l a b` when a and b are in the list and
a's arguments reference b's uuid (a depends on b). -/
def Edge (l : List Job) (a b : Job) : Prop :=
  a ∈ l ∧ b ∈ l ∧ b.uuid ∈ argUuids a ∧ b.uuid ≠ a.uuid

/-- A semantic dependency cycle: some job transitively depends on itself. -/
def HasCycle (l : List Job) : Prop := ∃ j, Relation.TransGen (Edge l) j j

/-- Jobs for the Flow.add witnesses: a parentless base job, a dependent
child, a child that already has a parent, and a pair forming a cycle. -/
def w9a : Job := ⟨61, 1, "base", Fn.constF (Val.vint 1), [], []⟩

def w9b : Job := ⟨62, 1, "dep", Fn.constF (Val.vint 2), [Val.vref ⟨61, []⟩], []⟩

def w9parented : Job := ⟨63, 1, "owned", Fn.constF (Val.vint 3), [], [500]⟩

def w9c1 : Job := ⟨64, 1, "cyc1", Fn.constF (Val.vint 4), [Val.vref ⟨65, []⟩], []⟩

def w9c2 : Job := ⟨65, 1, "cyc2", Fn.constF (Val.vint 5), [Val.vref ⟨64, []⟩], []⟩

/-! Definitions above; theorems below. -/

/-! ### Reference laziness (C5) -/

theorem descend_append (p : List PathStep) :
    ∀ u q, OutputReference.descend ⟨u, q⟩ p = ⟨u, q ++ p⟩ := by
  induction p with
  | nil => intro u q; simp [OutputReference.descend]
  | cons s rest ih =>
      intro u q
      cases s with
      | attr a =>
          show OutputReference.descend ⟨u, q ++ [PathStep.attr a]⟩ rest =
            ⟨u, q ++ PathStep.attr a :: rest⟩
          rw [ih]
          simp
      | idx n =>
          show OutputReference.descend ⟨u, q ++ [PathStep.idx n]⟩ rest =
            ⟨u, q ++ PathStep.idx n :: rest⟩
          rw [ih]
          simp

/-- C5: for every Job J and every attribute/index path p, descending with p
from `J.output` yields exactly the freshly constructed reference
`OutputReference(J.uuid, p)`: each access appends to the path, and the
operations are pure Lean functions, so no evaluation or side effect can
occur at access time. -/
theorem reference_purity (J : Job) (p : List PathStep) :
    J.output.descend p = OutputReference.mk J.uuid p := by
  have h := descend_append p J.uuid []
  simpa [Job.output] using h

/-! ### Scenario S1 (C1) -/

/-- C1: running scenario S1 with run_locally returns exactly the mapping
{U1: {1: Response(output=6)}, U2: {1: Response(output=9)}} — job a's response
at index 1 has output 6, job b's response at index 1 has output 9, and the
returned mapping has no other entry. -/
theorem s1_run_locally :
    run_locally s1flow none = Except.ok
      ([(1, 1, Outcome.done ⟨Val.vint 6, false, false⟩),
        (2, 1, Outcome.done ⟨Val.vint 9, false, false⟩)],
       ⟨[⟨2, 1, Val.vint 9⟩, ⟨1, 1, Val.vint 6⟩], [], 0⟩,
       [Event.start 1 1, Event.finish 1 1, Event.start 2 1, Event.finish 2 1]) := by
  rfl

/-! ### JobStore: default index is the highest completed index (C6) -/

theorem bestIndex_spec (u : Nat) (l : List MainRecord) :
    (bestIndex u l = none → ∀ r ∈ l, r.uuid ≠ u) ∧
    (∀ m, bestIndex u l = some m →
      (∃ r ∈ l, r.uuid = u ∧ r.index = m) ∧ ∀ r ∈ l, r.uuid = u → r.index ≤ m) := by
  induction l with
  | nil => simp [bestIndex]
  | cons r rest ih =>
      cases hb : bestIndex u rest with
      | none =>
          by_cases hu : r.uuid = u
          · constructor
            · intro h
              simp only [bestIndex, hb, if_pos hu] at h
              exact Option.noConfusion h
            · intro m hm
              simp only [bestIndex, hb, if_pos hu, Option.some.injEq] at hm
              refine ⟨⟨r, List.mem_cons_self r rest, hu, hm⟩, ?_⟩
              intro r2 hr2 hu2
              rcases List.mem_cons.mp hr2 with rfl | hmem
              · omega
              · exact absurd hu2 (ih.1 hb r2 hmem)
          · constructor
            · intro _ r2 hr2
              rcases List.mem_cons.mp hr2 with rfl | hmem
              · exact hu
              · exact ih.1 hb r2 hmem
            · intro m hm
              simp only [bestIndex, hb, if_neg hu] at hm
              exact Option.noConfusion hm
      | some m0 =>
          have hrec := ih.2 m0 hb
          by_cases hu : r.uuid = u
          · constructor
            · intro h
              simp only [bestIndex, hb, if_pos hu] at h
              exact Option.noConfusion h
            · intro m hm
              simp only [bestIndex, hb, if_pos hu, Option.some.injEq] at hm
              constructor
              · rcases le_total r.index m0 with hle | hle
                · rcases hrec.1 with ⟨r2, hr2, hru, hri⟩
                  refine ⟨r2, List.mem_cons_of_mem r hr2, hru, ?_⟩
                  omega
                · exact ⟨r, List.mem_cons_self r rest, hu, by omega⟩
              · intro r2 hr2 hu2
                rcases List.mem_cons.mp hr2 with rfl | hmem
                · have := Nat.le_max_left r2.index m0
                  omega
                · have := hrec.2 r2 hmem hu2
                  have := Nat.le_max_right r.index m0
                  omega
          · constructor
            · intro h
              simp only [bestIndex, hb, if_neg hu] at h
              exact Option.noConfusion h
            · intro m hm
              simp only [bestIndex, hb, if_neg hu, Option.some.injEq] at hm
              subst hm
              constructor
              · rcases hrec.1 with ⟨r2, hr2, hru, hri⟩
                exact ⟨r2, List.mem_cons_of_mem r hr2, hru, hri⟩
              · intro r2 hr2 hu2
                rcases List.mem_cons.mp hr2 with rfl | hmem
                · exact absurd hu2 hu
                · exact hrec.2 r2 hmem hu2

theorem bestIndex_isSome {u : Nat} {r : MainRecord} {l : List MainRecord}
    (hmem : r ∈ l) (hu : r.uuid = u) : ∃ m, bestIndex u l = some m := by
  cases hb : bestIndex u l with
  | none => exact absurd hu ((bestIndex_spec u l).1 hb r hmem)
  | some m => exact ⟨m, rfl⟩

/-- C6: for every store and uuid with at least one record, `get_output`
without an explicit index returns the output stored under the highest index
for that uuid (the spec's "default: highest index known").  In particular,
after a self-replace stored a replacement under an incremented index, the
replacement's value is returned rather than the original one. -/
theorem get_output_default_highest (s : JobStore) (u : Nat) (r : MainRecord)
    (load : Bool) (hmem : r ∈ s.main) (huuid : r.uuid = u)
    (hmax : ∀ r2 ∈ s.main, r2.uuid = u → r2.index ≤ r.index)
    (huniq : ∀ r1 ∈ s.main, ∀ r2 ∈ s.main,
      r1.uuid = r2.uuid → r1.index = r2.index → r1 = r2) :
    s.get_output u none load =
      Except.ok (if load then loadBlobs s.aux r.output else r.output) := by
  rcases bestIndex_isSome hmem huuid with ⟨m, hm⟩
  have hspec := (bestIndex_spec u s.main).2 m hm
  have hmr : m = r.index := by
    rcases hspec.1 with ⟨r2, hr2, hru, hri⟩
    have h1 : r2.index ≤ r.index := hmax r2 hr2 hru
    have h2 : r.index ≤ m := hspec.2 r hmem huuid
    omega
  subst hmr
  have hfind : s.main.find? (fun r2 => r2.uuid = u ∧ r2.index = r.index) = some r := by
    have hsome : (s.main.find? (fun r2 => r2.uuid = u ∧ r2.index = r.index)).isSome := by
      rw [List.find?_isSome]
      exact ⟨r, hmem, by simp [huuid]⟩
    rcases Option.isSome_iff_exists.mp hsome with ⟨r2, hr2⟩
    have hp := List.find?_some hr2
    have hmem2 := List.mem_of_find?_eq_some hr2
    simp only [decide_eq_true_eq] at hp
    have heq : r2 = r := huniq r2 hmem2 r hmem (by rw [hp.1, huuid]) hp.2
    rw [hr2, heq]
  simp only [JobStore.get_output, hm, JobStore.lookupMain, hfind]

/-- Witness for C6: a store holding an original output 10 under index 1 and
a replacement output 20 under index 2 for uuid 5; the default-index
`get_output` returns the replacement's value 20. -/
theorem get_output_default_highest_w :
    (⟨[⟨5, 2, Val.vint 20⟩, ⟨5, 1, Val.vint 10⟩], [], 0⟩ : JobStore).get_output
      5 none false = Except.ok (Val.vint 20) := by
  have h := get_output_default_highest
    ⟨[⟨5, 2, Val.vint 20⟩, ⟨5, 1, Val.vint 10⟩], [], 0⟩ 5
    ⟨5, 2, Val.vint 20⟩ false
    (by decide) (by decide) (by decide) (by decide)
  simpa using h

/-! ### JobStore: multi-store routing and blob integrity (C7) -/

theorem routeVal_bounds (sn : List (String × String)) :
    ∀ (v : Val) (c : Nat),
      c ≤ (routeVal sn v c).2.2 ∧
      (∀ b ∈ (routeVal sn v c).2.1, c ≤ b.blobUuid ∧ b.blobUuid < (routeVal sn v c).2.2) ∧
      (routeVal sn v c).2.1.Pairwise (fun b1 b2 => b1.blobUuid < b2.blobUuid) := by
  intro v
  induction v with
  | vcons h t ihh iht =>
      intro c
      rcases ihh c with ⟨hc1, hb1, hp1⟩
      rcases iht (routeVal sn h c).2.2 with ⟨hc2, hb2, hp2⟩
      refine ⟨?_, ?_, ?_⟩
      · simp only [routeVal]
        omega
      · intro b hb
        simp only [routeVal, List.mem_append] at hb ⊢
        rcases hb with hb | hb
        · rcases hb1 b hb with ⟨h1, h2⟩
          exact ⟨h1, by omega⟩
        · rcases hb2 b hb with ⟨h1, h2⟩
          exact ⟨by omega, h2⟩
      · simp only [routeVal]
        rw [List.pairwise_append]
        refine ⟨hp1, hp2, ?_⟩
        intro b1 hbm1 b2 hbm2
        rcases hb1 b1 hbm1 with ⟨_, h2⟩
        rcases hb2 b2 hbm2 with ⟨h3, _⟩
        omega
  | dcons k v rest ihv ihr =>
      intro c
      cases hk : lookupStr k sn with
      | some storeName =>
          rcases ihr (c + 1) with ⟨hc1, hb1, hp1⟩
          refine ⟨?_, ?_, ?_⟩
          · simp only [routeVal, hk]
            omega
          · intro b hb
            simp only [routeVal, hk, List.mem_cons] at hb ⊢
            rcases hb with rfl | hb
            · simp only []
              omega
            · rcases hb1 b hb with ⟨h1, h2⟩
              exact ⟨by omega, h2⟩
          · simp only [routeVal, hk]
            refine List.Pairwise.cons ?_ hp1
            intro b hb
            rcases hb1 b hb with ⟨h1, _⟩
            simp only []
            omega
      | none =>
          rcases ihv c with ⟨hc1, hb1, hp1⟩
          rcases ihr (routeVal sn v c).2.2 with ⟨hc2, hb2, hp2⟩
          refine ⟨?_, ?_, ?_⟩
          · simp only [routeVal, hk]
            omega
          · intro b hb
            simp only [routeVal, hk, List.mem_append] at hb ⊢
            rcases hb with hb | hb
            · rcases hb1 b hb with ⟨h1, h2⟩
              exact ⟨h1, by omega⟩
            · rcases hb2 b hb with ⟨h1, h2⟩
              exact ⟨by omega, h2⟩
          · simp only [routeVal, hk]
            rw [List.pairwise_append]
            refine ⟨hp1, hp2, ?_⟩
            intro b1 hbm1 b2 hbm2
            rcases hb1 b1 hbm1 with ⟨_, h2⟩
            rcases hb2 b2 hbm2 with ⟨h3, _⟩
            omega
  | vnull => intro c; simp [routeVal]
  | vint n => intro c; simp [routeVal]
  | vstr s => intro c; simp [routeVal]
  | vbool b => intro c; simp [routeVal]
  | vref r => intro c; simp [routeVal]
  | vblob bu st => intro c; simp [routeVal]
  | vnil => intro c; simp [routeVal]
  | dnil => intro c; simp [routeVal]

theorem auxLookup_fresh :
    ∀ (bs rest : List BlobRecord),
      bs.Pairwise (fun b1 b2 => b1.blobUuid < b2.blobUuid) →
      ∀ b ∈ bs, auxLookup (bs ++ rest) b.store b.blobUuid = some b.value := by
  intro bs
  induction bs with
  | nil => intro rest _ b hb; simp at hb
  | cons x xs ih =>
      intro rest hp b hb
      rcases List.mem_cons.mp hb with rfl | hb2
      · simp [auxLookup, List.find?_cons]
      · have hlt : x.blobUuid < b.blobUuid := (List.pairwise_cons.mp hp).1 b hb2
        have hd : decide (x.store = b.store ∧ x.blobUuid = b.blobUuid) = false := by
          simp only [decide_eq_false_iff_not]
          intro hcon
          omega
        simp only [auxLookup, List.cons_append, List.find?_cons, hd]
        exact ih rest (List.pairwise_cons.mp hp).2 b hb2

theorem loadBlobs_routeVal (sn : List (String × String)) :
    ∀ (v : Val) (c : Nat) (aux : List BlobRecord),
      noBlob v = true →
      (∀ b ∈ (routeVal sn v c).2.1, auxLookup aux b.store b.blobUuid = some b.value) →
      loadBlobs aux (routeVal sn v c).1 = v := by
  intro v
  induction v with
  | vcons h t ihh iht =>
      intro c aux hnb hlk
      simp only [noBlob, Bool.and_eq_true] at hnb
      simp only [routeVal, loadBlobs]
      rw [ihh c aux hnb.1 (fun b hb => hlk b (by
          simp only [routeVal, List.mem_append]; exact Or.inl hb)),
        iht (routeVal sn h c).2.2 aux hnb.2 (fun b hb => hlk b (by
          simp only [routeVal, List.mem_append]; exact Or.inr hb))]
  | dcons k v rest ihv ihr =>
      intro c aux hnb hlk
      simp only [noBlob, Bool.and_eq_true] at hnb
      cases hk : lookupStr k sn with
      | some storeName =>
          have hb0 : auxLookup aux storeName c = some v := by
            have := hlk ⟨storeName, c, v⟩ (by simp [routeVal, hk])
            simpa using this
          simp only [routeVal, hk, loadBlobs, hb0]
          rw [ihr (c + 1) aux hnb.2 (fun b hb => hlk b (by
              simp only [routeVal, hk, List.mem_cons]; exact Or.inr hb))]
      | none =>
          simp only [routeVal, hk, loadBlobs]
          rw [ihv c aux hnb.1 (fun b hb => hlk b (by
              simp only [routeVal, hk, List.mem_append]; exact Or.inl hb)),
            ihr (routeVal sn v c).2.2 aux hnb.2 (fun b hb => hlk b (by
              simp only [routeVal, hk, List.mem_append]; exact Or.inr hb))]
  | vnull => intro c aux _ _; simp [routeVal, loadBlobs]
  | vint n => intro c aux _ _; simp [routeVal, loadBlobs]
  | vstr s => intro c aux _ _; simp [routeVal, loadBlobs]
  | vbool b => intro c aux _ _; simp [routeVal, loadBlobs]
  | vref r => intro c aux _ _; simp [routeVal, loadBlobs]
  | vblob bu st => intro c aux hnb _; simp [noBlob] at hnb
  | vnil => intro c aux _ _; simp [routeVal, loadBlobs]
  | dnil => intro c aux _ _; simp [routeVal, loadBlobs]

theorem loadBlobs_noBlob (aux : List BlobRecord) :
    ∀ v : Val, noBlob v = true → loadBlobs aux v = v := by
  intro v
  induction v with
  | vcons h t ihh iht =>
      intro hnb
      simp only [noBlob, Bool.and_eq_true] at hnb
      simp [loadBlobs, ihh hnb.1, iht hnb.2]
  | dcons k v rest ihv ihr =>
      intro hnb
      simp only [noBlob, Bool.and_eq_true] at hnb
      simp [loadBlobs, ihv hnb.1, ihr hnb.2]
  | vnull => intro _; simp [loadBlobs]
  | vint n => intro _; simp [loadBlobs]
  | vstr s => intro _; simp [loadBlobs]
  | vbool b => intro _; simp [loadBlobs]
  | vref r => intro _; simp [loadBlobs]
  | vblob bu st => intro hnb; simp [noBlob] at hnb
  | vnil => intro _; simp [loadBlobs]
  | dnil => intro _; simp [loadBlobs]

/-- C7: (general part) for every store, output tree without pre-existing
blob markers, and routing table, `save` followed by `get_output` with
loading reconstructs a value equal to the original output; (concrete part,
scenario S6) after saving `{"big": <large>, "small": 1}` with routing
`{"big": "blobs"}`, the main record holds the tree with the routed subtree
replaced by a blob marker and the auxiliary store "blobs" holds the original
subtree. -/
theorem blob_integrity :
    (∀ (s : JobStore) (u i : Nat) (output : Val) (sn : List (String × String)),
      noBlob output = true →
      (s.save u i output sn).get_output u (some i) true = Except.ok output) ∧
    (emptyStore.save 7 1 s6doc [("big", "blobs")]).main = [⟨7, 1, s6routed⟩] ∧
    (emptyStore.save 7 1 s6doc [("big", "blobs")]).aux = [⟨"blobs", 0, s6big⟩] ∧
    (emptyStore.save 7 1 s6doc [("big", "blobs")]).get_output 7 (some 1) true =
      Except.ok s6doc := by
  refine ⟨?_, by rfl, by rfl, by rfl⟩
  intro s u i output sn hnb
  have hload : loadBlobs ((routeVal sn output s.nextBlob).2.1 ++ s.aux)
      (routeVal sn output s.nextBlob).1 = output := by
    apply loadBlobs_routeVal sn output s.nextBlob _ hnb
    intro b hb
    exact auxLookup_fresh _ s.aux (routeVal_bounds sn output s.nextBlob).2.2 b hb
  simp only [JobStore.save, JobStore.get_output, JobStore.lookupMain, List.find?_cons]
  simp [hload]

/-- Witness for C7: the general round-trip applied to a small concrete
output with a nontrivial routing table. -/
theorem blob_integrity_w :
    ((⟨[], [], 5⟩ : JobStore).save 9 1
        (Val.dcons "big" (Val.vint 42) Val.dnil) [("big", "blobs")]).get_output
      9 (some 1) true = Except.ok (Val.dcons "big" (Val.vint 42) Val.dnil) :=
  blob_integrity.1 ⟨[], [], 5⟩ 9 1 (Val.dcons "big" (Val.vint 42) Val.dnil)
    [("big", "blobs")] (by decide)

/-! ### Scheduler bookkeeping lemmas -/

theorem extractFirst_some {α : Type} {p : α → Bool} :
    ∀ {l l1 : List α} {x : α} {l2 : List α},
      extractFirst p l = some (l1, x, l2) →
      l = l1 ++ x :: l2 ∧ p x = true ∧ ∀ y ∈ l1, p y = false := by
  intro l
  induction l with
  | nil => intro l1 x l2 h; simp [extractFirst] at h
  | cons a as ih =>
      intro l1 x l2 h
      simp only [extractFirst] at h
      by_cases hp : p a
      · rw [if_pos hp] at h
        simp only [Option.some.injEq, Prod.mk.injEq] at h
        rcases h with ⟨h1, h2, h3⟩
        subst h1; subst h2; subst h3
        exact ⟨rfl, hp, by simp⟩
      · rw [if_neg hp] at h
        cases hE : extractFirst p as with
        | none => rw [hE] at h; simp at h
        | some y =>
            rw [hE] at h
            rcases y with ⟨y1, x1, y2⟩
            simp only [Option.map_some', Option.some.injEq, Prod.mk.injEq] at h
            rcases h with ⟨h1, h2, h3⟩
            rcases ih hE with ⟨ha, hb, hc⟩
            subst h2; subst h3
            refine ⟨?_, hb, ?_⟩
            · rw [← h1]; simp [ha]
            · intro y hy
              rw [← h1] at hy
              rcases List.mem_cons.mp hy with rfl | hy2
              · simpa using hp
              · exact hc y hy2

theorem extractFirst_none {α : Type} {p : α → Bool} :
    ∀ {l : List α}, extractFirst p l = none → ∀ x ∈ l, p x = false := by
  intro l
  induction l with
  | nil => intro _ x hx; simp at hx
  | cons a as ih =>
      intro h x hx
      simp only [extractFirst] at h
      by_cases hp : p a
      · rw [if_pos hp] at h; simp at h
      · rw [if_neg hp] at h
        rcases List.mem_cons.mp hx with rfl | hx2
        · simpa using hp
        · cases hE : extractFirst p as with
          | none => exact ih hE x hx2
          | some y => rw [hE] at h; simp at h

theorem nodup_move {R L1 L2 : List Nat} {a : Nat}
    (h : (R ++ (L1 ++ a :: L2)).Nodup) : ((R ++ [a]) ++ (L1 ++ L2)).Nodup := by
  have hp : (R ++ (L1 ++ a :: L2)).Perm ((R ++ [a]) ++ (L1 ++ L2)) := by
    have h1 : (a :: (L1 ++ L2)).Perm (L1 ++ a :: L2) := List.perm_middle.symm
    have h2 : (R ++ a :: (L1 ++ L2)).Perm (R ++ (L1 ++ a :: L2)) :=
      List.Perm.append_left R h1
    have h3 : (R ++ [a]) ++ (L1 ++ L2) = R ++ a :: (L1 ++ L2) := by simp
    rw [h3]
    exact h2.symm
  exact hp.nodup h

theorem routeVal_nil_routing : ∀ (v : Val) (c : Nat), routeVal [] v c = (v, [], c) := by
  intro v
  induction v with
  | vcons h t ihh iht => intro c; simp [routeVal, ihh, iht]
  | dcons k v rest ihv ihr => intro c; simp [routeVal, lookupStr, ihv, ihr]
  | vnull => intro c; simp [routeVal]
  | vint n => intro c; simp [routeVal]
  | vstr s => intro c; simp [routeVal]
  | vbool b => intro c; simp [routeVal]
  | vref r => intro c; simp [routeVal]
  | vblob bu st => intro c; simp [routeVal]
  | vnil => intro c; simp [routeVal]
  | dnil => intro c; simp [routeVal]

theorem schedInv_init (jobs0 : List Job) (store0 : JobStore)
    (hnd : (jobs0.map Job.uuid).Nodup) :
    SchedInv jobs0 store0 (initState jobs0 store0) := by
  constructor
  case pend_sub => intro j hj; exact hj
  case keys_from => intro e he; simp [initState] at he
  case nodup_all => simpa [initState] using hnd
  case acct => intro j hj; exact Or.inl hj
  case store_char =>
      intro mrec
      constructor
      · intro h; exact Or.inl h
      · rintro (h | ⟨resp, h, _⟩)
        · exact h
        · simp [initState] at h
  case start_resp => intro u i h; simp [initState] at h
  case finish_resp => intro u i h; simp [initState] at h
  case done_resp => intro u h; simp [initState] at h
  case done_finish => intro u h; simp [initState] at h
  case resp_class => intro u i o h; simp [initState] at h
  case class_resp => intro u h; simp [initState] at h
  case stopped_done => intro u h; simp [initState] at h
  case stop_resp => intro u i resp h _; simp [initState] at h

theorem schedInv_stCancel {jobs0 : List Job} {store0 : JobStore} {st : RunState}
    (hInv : SchedInv jobs0 store0 st) {l1 l2 : List Job} {j : Job}
    (hsplit : st.pending = l1 ++ j :: l2) :
    SchedInv jobs0 store0 (stCancel st j (l1 ++ l2)) := by
  have hjp : j ∈ st.pending := by
    rw [hsplit]; exact List.mem_append_right _ (List.mem_cons_self _ _)
  constructor
  case pend_sub =>
      intro j2 hj2
      apply hInv.pend_sub
      rw [hsplit]
      rcases List.mem_append.mp hj2 with h | h
      · exact List.mem_append_left _ h
      · exact List.mem_append_right _ (List.mem_cons_of_mem _ h)
  case keys_from =>
      intro e he
      rcases List.mem_append.mp he with h | h
      · exact hInv.keys_from e h
      · simp only [List.mem_singleton] at h
        subst h
        exact ⟨j, hInv.pend_sub j hjp, rfl, rfl⟩
  case nodup_all =>
      have h0 := hInv.nodup_all
      rw [hsplit] at h0
      simp only [List.map_append, List.map_cons] at h0
      simp only [stCancel, List.map_append, List.map_cons]
      exact nodup_move h0
  case acct =>
      intro j0 hj0
      rcases hInv.acct j0 hj0 with hp | ⟨o, ho⟩
      · rw [hsplit] at hp
        rcases List.mem_append.mp hp with h | h
        · exact Or.inl (List.mem_append_left _ h)
        · rcases List.mem_cons.mp h with rfl | h2
          · exact Or.inr ⟨Outcome.cancelled,
              List.mem_append_right _ (List.mem_singleton.mpr rfl)⟩
          · exact Or.inl (List.mem_append_right _ h2)
      · exact Or.inr ⟨o, List.mem_append_left _ ho⟩
  case store_char =>
      intro mrec
      have hiff : (∃ resp, (mrec.uuid, mrec.index, Outcome.done resp) ∈
          (stCancel st j (l1 ++ l2)).responses ∧ mrec.output = resp.output) ↔
          (∃ resp, (mrec.uuid, mrec.index, Outcome.done resp) ∈ st.responses ∧
            mrec.output = resp.output) := by
        constructor
        · rintro ⟨resp, hm, hout⟩
          rcases List.mem_append.mp hm with h | h
          · exact ⟨resp, h, hout⟩
          · simp at h
        · rintro ⟨resp, hm, hout⟩
          exact ⟨resp, List.mem_append_left _ hm, hout⟩
      rw [show (stCancel st j (l1 ++ l2)).store = st.store from rfl, hiff]
      exact hInv.store_char mrec
  case start_resp =>
      intro u i h
      rcases hInv.start_resp u i h with ⟨o, ho, hne⟩
      exact ⟨o, List.mem_append_left _ ho, hne⟩
  case finish_resp =>
      intro u i h
      rcases hInv.finish_resp u i h with ⟨resp, ho⟩
      exact ⟨resp, List.mem_append_left _ ho⟩
  case done_resp =>
      intro u hu
      rcases hInv.done_resp u hu with ⟨i, resp, ho⟩
      exact ⟨i, resp, List.mem_append_left _ ho⟩
  case done_finish => exact hInv.done_finish
  case resp_class =>
      intro u i o h
      rcases List.mem_append.mp h with h2 | h2
      · rcases hInv.resp_class u i o h2 with hD | hC | hF
        · exact Or.inl hD
        · exact Or.inr (Or.inl ⟨hC.1, List.mem_cons_of_mem _ hC.2⟩)
        · exact Or.inr (Or.inr hF)
      · simp only [List.mem_singleton, Prod.mk.injEq] at h2
        exact Or.inr (Or.inl ⟨h2.2.2, by rw [h2.1]; exact List.mem_cons_self _ _⟩)
  case class_resp =>
      intro u hu
      rcases hu with hD | hC | hF
      · rcases hInv.class_resp u (Or.inl hD) with ⟨i, o, ho⟩
        exact ⟨i, o, List.mem_append_left _ ho⟩
      · rcases List.mem_cons.mp hC with rfl | hC2
        · exact ⟨j.index, Outcome.cancelled,
            List.mem_append_right _ (List.mem_singleton.mpr rfl)⟩
        · rcases hInv.class_resp u (Or.inr (Or.inl hC2)) with ⟨i, o, ho⟩
          exact ⟨i, o, List.mem_append_left _ ho⟩
      · rcases hInv.class_resp u (Or.inr (Or.inr hF)) with ⟨i, o, ho⟩
        exact ⟨i, o, List.mem_append_left _ ho⟩
  case stopped_done => exact hInv.stopped_done
  case stop_resp =>
      intro u i resp h hstop
      rcases List.mem_append.mp h with h2 | h2
      · exact hInv.stop_resp u i resp h2 hstop
      · simp at h2

theorem schedInv_stFail {jobs0 : List Job} {store0 : JobStore} {st : RunState}
    (hInv : SchedInv jobs0 store0 st) {l1 l2 : List Job} {j : Job}
    (hsplit : st.pending = l1 ++ j :: l2) :
    SchedInv jobs0 store0 (stFail st j (l1 ++ l2)) := by
  have hjp : j ∈ st.pending := by
    rw [hsplit]; exact List.mem_append_right _ (List.mem_cons_self _ _)
  constructor
  case pend_sub =>
      intro j2 hj2
      apply hInv.pend_sub
      rw [hsplit]
      rcases List.mem_append.mp hj2 with h | h
      · exact List.mem_append_left _ h
      · exact List.mem_append_right _ (List.mem_cons_of_mem _ h)
  case keys_from =>
      intro e he
      rcases List.mem_append.mp he with h | h
      · exact hInv.keys_from e h
      · simp only [List.mem_singleton] at h
        subst h
        exact ⟨j, hInv.pend_sub j hjp, rfl, rfl⟩
  case nodup_all =>
      have h0 := hInv.nodup_all
      rw [hsplit] at h0
      simp only [List.map_append, List.map_cons] at h0
      simp only [stFail, List.map_append, List.map_cons]
      exact nodup_move h0
  case acct =>
      intro j0 hj0
      rcases hInv.acct j0 hj0 with hp | ⟨o, ho⟩
      · rw [hsplit] at hp
        rcases List.mem_append.mp hp with h | h
        · exact Or.inl (List.mem_append_left _ h)
        · rcases List.mem_cons.mp h with rfl | h2
          · exact Or.inr ⟨Outcome.failed,
              List.mem_append_right _ (List.mem_singleton.mpr rfl)⟩
          · exact Or.inl (List.mem_append_right _ h2)
      · exact Or.inr ⟨o, List.mem_append_left _ ho⟩
  case store_char =>
      intro mrec
      have hiff : (∃ resp, (mrec.uuid, mrec.index, Outcome.done resp) ∈
          (stFail st j (l1 ++ l2)).responses ∧ mrec.output = resp.output) ↔
          (∃ resp, (mrec.uuid, mrec.index, Outcome.done resp) ∈ st.responses ∧
            mrec.output = resp.output) := by
        constructor
        · rintro ⟨resp, hm, hout⟩
          rcases List.mem_append.mp hm with h | h
          · exact ⟨resp, h, hout⟩
          · simp at h
        · rintro ⟨resp, hm, hout⟩
          exact ⟨resp, List.mem_append_left _ hm, hout⟩
      rw [show (stFail st j (l1 ++ l2)).store = st.store from rfl, hiff]
      exact hInv.store_char mrec
  case start_resp =>
      intro u i h
      rcases List.mem_append.mp h with h2 | h2
      · rcases hInv.start_resp u i h2 with ⟨o, ho, hne⟩
        exact ⟨o, List.mem_append_left _ ho, hne⟩
      · simp only [List.mem_singleton, Event.start.injEq] at h2
        rcases h2 with ⟨rfl, rfl⟩
        exact ⟨Outcome.failed, List.mem_append_right _ (List.mem_singleton.mpr rfl),
          by simp⟩
  case finish_resp =>
      intro u i h
      rcases List.mem_append.mp h with h2 | h2
      · rcases hInv.finish_resp u i h2 with ⟨resp, ho⟩
        exact ⟨resp, List.mem_append_left _ ho⟩
      · simp at h2
  case done_resp =>
      intro u hu
      rcases hInv.done_resp u hu with ⟨i, resp, ho⟩
      exact ⟨i, resp, List.mem_append_left _ ho⟩
  case done_finish =>
      intro u hu
      rcases hInv.done_finish u hu with ⟨i, hf⟩
      exact ⟨i, List.mem_append_left _ hf⟩
  case resp_class =>
      intro u i o h
      rcases List.mem_append.mp h with h2 | h2
      · rcases hInv.resp_class u i o h2 with hD | hC | hF
        · exact Or.inl hD
        · exact Or.inr (Or.inl hC)
        · exact Or.inr (Or.inr ⟨hF.1, List.mem_cons_of_mem _ hF.2⟩)
      · simp only [List.mem_singleton, Prod.mk.injEq] at h2
        exact Or.inr (Or.inr ⟨h2.2.2, by rw [h2.1]; exact List.mem_cons_self _ _⟩)
  case class_resp =>
      intro u hu
      rcases hu with hD | hC | hF
      · rcases hInv.class_resp u (Or.inl hD) with ⟨i, o, ho⟩
        exact ⟨i, o, List.mem_append_left _ ho⟩
      · rcases hInv.class_resp u (Or.inr (Or.inl hC)) with ⟨i, o, ho⟩
        exact ⟨i, o, List.mem_append_left _ ho⟩
      · rcases List.mem_cons.mp hF with rfl | hF2
        · exact ⟨j.index, Outcome.failed,
            List.mem_append_right _ (List.mem_singleton.mpr rfl)⟩
        · rcases hInv.class_resp u (Or.inr (Or.inr hF2)) with ⟨i, o, ho⟩
          exact ⟨i, o, List.mem_append_left _ ho⟩
  case stopped_done => exact hInv.stopped_done
  case stop_resp =>
      intro u i resp h hstop
      rcases List.mem_append.mp h with h2 | h2
      · exact hInv.stop_resp u i resp h2 hstop
      · simp at h2

theorem schedInv_stSucc {jobs0 : List Job} {store0 : JobStore} {st : RunState}
    (hInv : SchedInv jobs0 store0 st) {l1 l2 : List Job} {j : Job} {resp : Response}
    (hsplit : st.pending = l1 ++ j :: l2) :
    SchedInv jobs0 store0 (stSucc st j (l1 ++ l2) resp) := by
  have hjp : j ∈ st.pending := by
    rw [hsplit]; exact List.mem_append_right _ (List.mem_cons_self _ _)
  have hjuuid : j.uuid ∉ st.responses.map (fun e => e.1) := by
    intro hmem
    have hd := List.disjoint_of_nodup_append hInv.nodup_all
    exact hd hmem (by
      rw [hsplit]
      simp only [List.map_append, List.map_cons]
      exact List.mem_append_right _ (List.mem_cons_self _ _))
  have hmain : (stSucc st j (l1 ++ l2) resp).store.main =
      (⟨j.uuid, j.index, resp.output⟩ : MainRecord) :: st.store.main := by
    simp [stSucc, JobStore.save, routeVal_nil_routing]
  constructor
  case pend_sub =>
      intro j2 hj2
      apply hInv.pend_sub
      rw [hsplit]
      rcases List.mem_append.mp hj2 with h | h
      · exact List.mem_append_left _ h
      · exact List.mem_append_right _ (List.mem_cons_of_mem _ h)
  case keys_from =>
      intro e he
      rcases List.mem_append.mp he with h | h
      · exact hInv.keys_from e h
      · simp only [List.mem_singleton] at h
        subst h
        exact ⟨j, hInv.pend_sub j hjp, rfl, rfl⟩
  case nodup_all =>
      have h0 := hInv.nodup_all
      rw [hsplit] at h0
      simp only [List.map_append, List.map_cons] at h0
      simp only [stSucc, List.map_append, List.map_cons]
      exact nodup_move h0
  case acct =>
      intro j0 hj0
      rcases hInv.acct j0 hj0 with hp | ⟨o, ho⟩
      · rw [hsplit] at hp
        rcases List.mem_append.mp hp with h | h
        · exact Or.inl (List.mem_append_left _ h)
        · rcases List.mem_cons.mp h with rfl | h2
          · exact Or.inr ⟨Outcome.done resp,
              List.mem_append_right _ (List.mem_singleton.mpr rfl)⟩
          · exact Or.inl (List.mem_append_right _ h2)
      · exact Or.inr ⟨o, List.mem_append_left _ ho⟩
  case store_char =>
      intro mrec
      rw [hmain]
      constructor
      · intro h
        rcases List.mem_cons.mp h with rfl | h2
        · exact Or.inr ⟨resp, List.mem_append_right _ (List.mem_singleton.mpr rfl), rfl⟩
        · rcases (hInv.store_char mrec).mp h2 with h3 | ⟨resp2, h3, hout⟩
          · exact Or.inl h3
          · exact Or.inr ⟨resp2, List.mem_append_left _ h3, hout⟩
      · rintro (h | ⟨resp2, h2, hout⟩)
        · exact List.mem_cons_of_mem _ ((hInv.store_char mrec).mpr (Or.inl h))
        · rcases List.mem_append.mp h2 with h3 | h3
          · exact List.mem_cons_of_mem _
              ((hInv.store_char mrec).mpr (Or.inr ⟨resp2, h3, hout⟩))
          · simp only [List.mem_singleton, Prod.mk.injEq, Outcome.done.injEq] at h3
            rcases h3 with ⟨hu, hi, hr⟩
            rcases mrec with ⟨mu, mi, mo⟩
            simp only at hu hi hout
            subst hu; subst hi
            rw [show mo = resp.output from by rw [hout, hr]]
            exact List.mem_cons_self _ _
  case start_resp =>
      intro u i h
      rcases List.mem_append.mp h with h2 | h2
      · rcases hInv.start_resp u i h2 with ⟨o, ho, hne⟩
        exact ⟨o, List.mem_append_left _ ho, hne⟩
      · rcases List.mem_cons.mp h2 with h3 | h3
        · injection h3 with h4 h5
          subst h4; subst h5
          exact ⟨Outcome.done resp,
            List.mem_append_right _ (List.mem_singleton.mpr rfl), by simp⟩
        · simp at h3
  case finish_resp =>
      intro u i h
      rcases List.mem_append.mp h with h2 | h2
      · rcases hInv.finish_resp u i h2 with ⟨resp2, ho⟩
        exact ⟨resp2, List.mem_append_left _ ho⟩
      · rcases List.mem_cons.mp h2 with h3 | h3
        · simp at h3
        · simp only [List.mem_singleton, Event.finish.injEq] at h3
          rcases h3 with ⟨rfl, rfl⟩
          exact ⟨resp, List.mem_append_right _ (List.mem_singleton.mpr rfl)⟩
  case done_resp =>
      intro u hu
      rcases List.mem_cons.mp hu with rfl | hu2
      · exact ⟨j.index, resp, List.mem_append_right _ (List.mem_singleton.mpr rfl)⟩
      · rcases hInv.done_resp u hu2 with ⟨i, resp2, ho⟩
        exact ⟨i, resp2, List.mem_append_left _ ho⟩
  case done_finish =>
      intro u hu
      rcases List.mem_cons.mp hu with rfl | hu2
      · exact ⟨j.index, List.mem_append_right _ (by simp)⟩
      · rcases hInv.done_finish u hu2 with ⟨i, hf⟩
        exact ⟨i, List.mem_append_left _ hf⟩
  case resp_class =>
      intro u i o h
      rcases List.mem_append.mp h with h2 | h2
      · rcases hInv.resp_class u i o h2 with hD | hC | hF
        · exact Or.inl ⟨hD.1, List.mem_cons_of_mem _ hD.2⟩
        · exact Or.inr (Or.inl hC)
        · exact Or.inr (Or.inr hF)
      · simp only [List.mem_singleton, Prod.mk.injEq] at h2
        refine Or.inl ⟨⟨resp, h2.2.2⟩, ?_⟩
        rw [h2.1]
        exact List.mem_cons_self _ _
  case class_resp =>
      intro u hu
      rcases hu with hD | hC | hF
      · rcases List.mem_cons.mp hD with rfl | hD2
        · exact ⟨j.index, Outcome.done resp,
            List.mem_append_right _ (List.mem_singleton.mpr rfl)⟩
        · rcases hInv.class_resp u (Or.inl hD2) with ⟨i, o, ho⟩
          exact ⟨i, o, List.mem_append_left _ ho⟩
      · rcases hInv.class_resp u (Or.inr (Or.inl hC)) with ⟨i, o, ho⟩
        exact ⟨i, o, List.mem_append_left _ ho⟩
      · rcases hInv.class_resp u (Or.inr (Or.inr hF)) with ⟨i, o, ho⟩
        exact ⟨i, o, List.mem_append_left _ ho⟩
  case stopped_done =>
      intro u hu
      by_cases hsc : resp.stopChildren
      · simp only [stSucc, if_pos hsc] at hu
        rcases List.mem_cons.mp hu with rfl | hu2
        · exact List.mem_cons_self _ _
        · exact List.mem_cons_of_mem _ (hInv.stopped_done u hu2)
      · simp only [stSucc, if_neg hsc] at hu
        exact List.mem_cons_of_mem _ (hInv.stopped_done u hu)
  case stop_resp =>
      intro u i resp2 h hstop
      have hkeep : ∀ v, v ∈ st.stoppedU →
          v ∈ (stSucc st j (l1 ++ l2) resp).stoppedU := by
        intro v hv
        simp only [stSucc]
        by_cases hc : resp.stopChildren
        · rw [if_pos hc]; exact List.mem_cons_of_mem _ hv
        · rw [if_neg hc]; exact hv
      rcases List.mem_append.mp h with h2 | h2
      · exact hkeep _ (hInv.stop_resp u i resp2 h2 hstop)
      · simp only [List.mem_singleton, Prod.mk.injEq, Outcome.done.injEq] at h2
        rcases h2 with ⟨h1, _, h3⟩
        have hc : resp.stopChildren = true := by rw [← h3]; exact hstop
        simp only [stSucc, if_pos hc]
        rw [h1]
        exact List.mem_cons_self _ _

theorem drain_trace : ∀ (n : Nat) (st : RunState), (drain n st).trace = st.trace := by
  intro n
  induction n with
  | zero => intro st; rfl
  | succ n ih =>
      intro st
      cases hB : extractFirst (blockedB st) st.pending with
      | some y =>
          simp only [drain, hB]
          rw [ih]
          rfl
      | none => simp only [drain, hB]

theorem drain_resp_mono : ∀ (n : Nat) (st : RunState) {e : Nat × Nat × Outcome},
    e ∈ st.responses → e ∈ (drain n st).responses := by
  intro n
  induction n with
  | zero => intro st e he; exact he
  | succ n ih =>
      intro st e he
      cases hB : extractFirst (blockedB st) st.pending with
      | some y =>
          simp only [drain, hB]
          exact ih _ (List.mem_append_left _ he)
      | none => simpa only [drain, hB] using he

theorem schedInv_drain {jobs0 : List Job} {store0 : JobStore} :
    ∀ (n : Nat) {st : RunState}, SchedInv jobs0 store0 st →
      SchedInv jobs0 store0 (drain n st) := by
  intro n
  induction n with
  | zero => intro st hInv; exact hInv
  | succ n ih =>
      intro st hInv
      cases hB : extractFirst (blockedB st) st.pending with
      | some y =>
          rcases y with ⟨l1, j, l2⟩
          rcases extractFirst_some hB with ⟨hsplit, _, _⟩
          simp only [drain, hB]
          exact ih (schedInv_stCancel hInv hsplit)
      | none =>
          simp only [drain, hB]
          exact hInv

theorem drain_unblocked : ∀ (n : Nat) (st : RunState),
    st.pending.length ≤ n →
    ∀ x ∈ (drain n st).pending, blockedB (drain n st) x = false := by
  intro n
  induction n with
  | zero =>
      intro st hlen x hx
      have hnil : st.pending = [] :=
        List.eq_nil_of_length_eq_zero (Nat.le_zero.mp hlen)
      simp only [drain] at hx
      rw [hnil] at hx
      simp at hx
  | succ n ih =>
      intro st hlen x hx
      cases hB : extractFirst (blockedB st) st.pending with
      | some y =>
          rcases y with ⟨l1, j, l2⟩
          rcases extractFirst_some hB with ⟨hsplit, _, _⟩
          simp only [drain, hB] at hx ⊢
          have hlen2 : l1.length + l2.length ≤ n := by
            have h3 : st.pending.length = l1.length + (l2.length + 1) := by
              rw [hsplit]; simp
            omega
          refine ih (stCancel st j (l1 ++ l2)) ?_ x hx
          simp only [stCancel]
          simp
          omega
      | none =>
          simp only [drain, hB] at hx ⊢
          exact extractFirst_none hB x hx

theorem runSched_resp_mono :
    ∀ (fuel : Nat) (st : RunState) {r : List (Nat × Nat × Outcome)} {s' : JobStore}
      {t : List Event}, runSched fuel st = Except.ok (r, s', t) →
      ∀ e ∈ st.responses, e ∈ r := by
  intro fuel
  induction fuel with
  | zero =>
      intro st r s' t hrun e he
      simp only [runSched] at hrun
      by_cases hemp : st.pending.isEmpty
      · rw [if_pos hemp] at hrun
        simp only [Except.ok.injEq, Prod.mk.injEq] at hrun
        rw [← hrun.1]
        exact he
      · rw [if_neg hemp] at hrun
        simp at hrun
  | succ fuel ih =>
      intro st r s' t hrun e he
      cases hB : extractFirst (blockedB st) st.pending with
      | some y =>
          simp only [runSched, hB] at hrun
          exact ih _ hrun e (List.mem_append_left _ he)
      | none =>
          cases hR : extractFirst (isReadyB st) st.pending with
          | some y =>
              cases hres : resolveArgs (envOf st) y.2.1.args with
              | none =>
                  simp only [runSched, hB, hR, execJob, hres] at hrun
                  exact ih _ hrun e (List.mem_append_left _ he)
              | some vals =>
                  cases hfn : y.2.1.fn.run vals with
                  | none =>
                      simp only [runSched, hB, hR, execJob, hres, hfn] at hrun
                      exact ih _ hrun e (List.mem_append_left _ he)
                  | some resp =>
                      cases hstop : resp.stopJobflow with
                      | true =>
                          simp only [runSched, hB, hR, execJob, hres, hfn,
                            hstop] at hrun
                          simp only [Except.ok.injEq, Prod.mk.injEq] at hrun
                          rw [← hrun.1]
                          exact drain_resp_mono _ _ (List.mem_append_left _ he)
                      | false =>
                          simp only [runSched, hB, hR, execJob, hres, hfn,
                            hstop] at hrun
                          exact ih _ hrun e (List.mem_append_left _ he)
          | none =>
              simp only [runSched, hB, hR] at hrun
              by_cases hemp : st.pending.isEmpty
              · rw [if_pos hemp] at hrun
                simp only [Except.ok.injEq, Prod.mk.injEq] at hrun
                rw [← hrun.1]
                exact he
              · rw [if_neg hemp] at hrun
                simp at hrun

theorem finalProps_of_inv {jobs0 : List Job} {store0 : JobStore} {st : RunState}
    (hInv : SchedInv jobs0 store0 st)
    (hcomp : (∀ u i resp, (u, i, Outcome.done resp) ∈ st.responses →
        resp.stopJobflow = false) →
      ∀ j ∈ jobs0, ∃ o, (j.uuid, j.index, o) ∈ st.responses) :
    FinalProps jobs0 store0 st.responses st.store st.trace := by
  constructor
  case keys_from => exact hInv.keys_from
  case uuid_nodup => exact hInv.nodup_all.of_append_left
  case complete => exact hcomp
  case store_char => exact hInv.store_char
  case start_resp => exact hInv.start_resp

theorem runSched_final {jobs0 : List Job} {store0 : JobStore} :
    ∀ (fuel : Nat) (st : RunState) {r : List (Nat × Nat × Outcome)} {s' : JobStore}
      {t : List Event},
      SchedInv jobs0 store0 st →
      runSched fuel st = Except.ok (r, s', t) →
      FinalProps jobs0 store0 r s' t := by
  intro fuel
  induction fuel with
  | zero =>
      intro st r s' t hInv hrun
      simp only [runSched] at hrun
      by_cases hemp : st.pending.isEmpty
      · rw [if_pos hemp] at hrun
        simp only [Except.ok.injEq, Prod.mk.injEq] at hrun
        obtain ⟨h1, h2, h3⟩ := hrun
        subst h1; subst h2; subst h3
        refine finalProps_of_inv hInv ?_
        intro _ j hj
        rcases hInv.acct j hj with hp | he
        · rw [List.isEmpty_iff.mp hemp] at hp
          simp at hp
        · exact he
      · rw [if_neg hemp] at hrun
        simp at hrun
  | succ fuel ih =>
      intro st r s' t hInv hrun
      cases hB : extractFirst (blockedB st) st.pending with
      | some y =>
          rcases y with ⟨l1, j, l2⟩
          rcases extractFirst_some hB with ⟨hsplit, _, _⟩
          simp only [runSched, hB] at hrun
          exact ih _ (schedInv_stCancel hInv hsplit) hrun
      | none =>
          cases hR : extractFirst (isReadyB st) st.pending with
          | some y =>
              rcases y with ⟨l1, j, l2⟩
              rcases extractFirst_some hR with ⟨hsplit, hready, _⟩
              cases hres : resolveArgs (envOf st) j.args with
              | none =>
                  simp only [runSched, hB, hR, execJob, hres] at hrun
                  exact ih _ (schedInv_stFail hInv hsplit) hrun
              | some vals =>
                  cases hfn : j.fn.run vals with
                  | none =>
                      simp only [runSched, hB, hR, execJob, hres, hfn] at hrun
                      exact ih _ (schedInv_stFail hInv hsplit) hrun
                  | some resp =>
                      cases hstop : resp.stopJobflow with
                      | true =>
                          simp only [runSched, hB, hR, execJob, hres, hfn, hstop] at hrun
                          simp only [Except.ok.injEq, Prod.mk.injEq] at hrun
                          obtain ⟨h1, h2, h3⟩ := hrun
                          subst h1; subst h2; subst h3
                          refine finalProps_of_inv
                            (schedInv_drain _ (schedInv_stSucc hInv hsplit)) ?_
                          intro hns _ _
                          exfalso
                          have := hns j.uuid j.index resp
                            (drain_resp_mono _ _
                              (List.mem_append_right _ (List.mem_singleton.mpr rfl)))
                          rw [this] at hstop
                          exact Bool.noConfusion hstop
                      | false =>
                          simp only [runSched, hB, hR, execJob, hres, hfn, hstop] at hrun
                          exact ih _ (schedInv_stSucc hInv hsplit) hrun
          | none =>
              simp only [runSched, hB, hR] at hrun
              by_cases hemp : st.pending.isEmpty
              · rw [if_pos hemp] at hrun
                simp only [Except.ok.injEq, Prod.mk.injEq] at hrun
                obtain ⟨h1, h2, h3⟩ := hrun
                subst h1; subst h2; subst h3
                refine finalProps_of_inv hInv ?_
                intro _ j hj
                rcases hInv.acct j hj with hp | he
                · rw [List.isEmpty_iff.mp hemp] at hp
                  simp at hp
                · exact he
              · rw [if_neg hemp] at hrun
                simp at hrun

/-! ### The shape of the run-locally response mapping (C2) -/

/-- C2: for every Flow executed through `run_locally` (with or without a
caller-supplied JobStore), the returned value is a mapping from job uuid to
index to outcome: each uuid appears at most once, every entry belongs to a
Job of the Flow and is distinguishable as done, cancelled, or failed, and —
unless some Response requested stop_jobflow — there is exactly one entry per
Job of the Flow. -/
theorem response_mapping_shape (f : Flow) (store? : Option JobStore)
    (hnd : (f.allJobs.map Job.uuid).Nodup)
    {r : List (Nat × Nat × Outcome)} {s' : JobStore} {t : List Event}
    (hrun : run_locally f store? = Except.ok (r, s', t)) :
    (r.map (fun e => e.1)).Nodup ∧
    (∀ e ∈ r, ∃ j, j ∈ f.allJobs ∧ e.1 = j.uuid ∧ e.2.1 = j.index ∧
      ((∃ resp, e.2.2 = Outcome.done resp) ∨ e.2.2 = Outcome.cancelled ∨
        e.2.2 = Outcome.failed)) ∧
    ((∀ u i resp, (u, i, Outcome.done resp) ∈ r → resp.stopJobflow = false) →
      ∀ j ∈ f.allJobs, ∃ o, (j.uuid, j.index, o) ∈ r) := by
  simp only [run_locally] at hrun
  have hfin := runSched_final _ _
    (schedInv_init f.allJobs (store?.getD emptyStore) hnd) hrun
  refine ⟨hfin.uuid_nodup, ?_, hfin.complete⟩
  intro e he
  rcases hfin.keys_from e he with ⟨j, hj, h1, h2⟩
  refine ⟨j, hj, h1, h2, ?_⟩
  cases ho : e.2.2 with
  | done resp => exact Or.inl ⟨resp, rfl⟩
  | cancelled => exact Or.inr (Or.inl rfl)
  | failed => exact Or.inr (Or.inr rfl)

/-- Witness for C2: running the concrete two-job flow, each job of the flow
receives exactly one entry. -/
theorem response_mapping_shape_w : ∃ o, ((21 : Nat), (1 : Nat), o) ∈ w2r := by
  have h := response_mapping_shape w2flow none (by decide)
    (show run_locally w2flow none = Except.ok
      (w2r, (⟨[⟨22, 1, Val.vint 2⟩, ⟨21, 1, Val.vint 1⟩], [], 0⟩ : JobStore),
       [Event.start 21 1, Event.finish 21 1, Event.start 22 1, Event.finish 22 1])
      by rfl)
  have hns : ∀ u i resp, (u, i, Outcome.done resp) ∈ w2r → resp.stopJobflow = false := by
    intro u i resp hm
    simp only [w2r, List.mem_cons, List.mem_singleton, Prod.mk.injEq,
      Outcome.done.injEq, List.not_mem_nil, or_false] at hm
    rcases hm with ⟨_, _, h2⟩ | ⟨_, _, h2⟩ <;> simp [h2]
  exact h.2.2 hns w2a (by decide)

/-! ### The persisted store agrees with the response mapping (C10) -/

/-- C10: after a `run_locally` execution over a store holding no record for
any of the flow's uuids, for every Job that completed (a done entry in the
returned mapping), `get_output` at that uuid with the default index returns
exactly the output recorded in the response mapping — the in-memory mapping
and the persisted store agree on every completed Job's output. -/
theorem store_matches_responses (f : Flow) (store? : Option JobStore)
    (hnd : (f.allJobs.map Job.uuid).Nodup)
    (hfresh : ∀ mrec ∈ (store?.getD emptyStore).main, ∀ j ∈ f.allJobs,
      mrec.uuid ≠ j.uuid)
    {r : List (Nat × Nat × Outcome)} {s' : JobStore} {t : List Event}
    (hrun : run_locally f store? = Except.ok (r, s', t))
    {u i : Nat} {resp : Response} (hmem : (u, i, Outcome.done resp) ∈ r)
    (hnb : noBlob resp.output = true) (load : Bool) :
    s'.get_output u none load = Except.ok resp.output := by
  simp only [run_locally] at hrun
  have hfin := runSched_final _ _
    (schedInv_init f.allJobs (store?.getD emptyStore) hnd) hrun
  have hrec0 : (⟨u, i, resp.output⟩ : MainRecord) ∈ s'.main :=
    (hfin.store_char _).mpr (Or.inr ⟨resp, hmem, rfl⟩)
  have hchar : ∀ mrec ∈ s'.main, mrec.uuid = u → mrec = ⟨u, i, resp.output⟩ := by
    intro mrec hm hu
    rcases (hfin.store_char mrec).mp hm with h0 | ⟨resp2, hm2, hout⟩
    · exfalso
      rcases hfin.keys_from _ hmem with ⟨j, hj, hju, _⟩
      exact (hfresh mrec h0 j hj) (by rw [hu]; exact hju)
    · have heq := List.inj_on_of_nodup_map hfin.uuid_nodup hm2 hmem (by simp [hu])
      rcases mrec with ⟨mu, mi, mo⟩
      simp only [Prod.mk.injEq, Outcome.done.injEq] at heq
      simp only at hu hout
      simp only [MainRecord.mk.injEq]
      exact ⟨hu, heq.2.1, by rw [hout, heq.2.2]⟩
  have hbi : bestIndex u s'.main = some i := by
    cases hb : bestIndex u s'.main with
    | none =>
        exact absurd (rfl : (⟨u, i, resp.output⟩ : MainRecord).uuid = u)
          ((bestIndex_spec u s'.main).1 hb _ hrec0)
    | some m =>
        rcases ((bestIndex_spec u s'.main).2 m hb).1 with ⟨r2, hr2, hru, hri⟩
        have h2 := hchar r2 hr2 hru
        rw [h2] at hri
        simp only at hri
        rw [hri]
  have hfind : s'.main.find? (fun r2 => r2.uuid = u ∧ r2.index = i) =
      some ⟨u, i, resp.output⟩ := by
    have hsome : (s'.main.find? (fun r2 => r2.uuid = u ∧ r2.index = i)).isSome := by
      rw [List.find?_isSome]
      exact ⟨_, hrec0, by simp⟩
    rcases Option.isSome_iff_exists.mp hsome with ⟨r2, hr2⟩
    have hp := List.find?_some hr2
    simp only [decide_eq_true_eq] at hp
    rw [hr2, hchar r2 (List.mem_of_find?_eq_some hr2) hp.1]
  simp only [JobStore.get_output, hbi, JobStore.lookupMain, hfind]
  cases load with
  | true => simp [loadBlobs_noBlob s'.aux resp.output hnb]
  | false => simp

/-- Witness for C10: in the concrete two-job run, the persisted store returns
job 22's recorded output 2 under the default index. -/
theorem store_matches_responses_w :
    (⟨[⟨22, 1, Val.vint 2⟩, ⟨21, 1, Val.vint 1⟩], [], 0⟩ : JobStore).get_output
      22 none true = Except.ok (Val.vint 2) := by
  have h := store_matches_responses w2flow none (by decide) (by simp [emptyStore])
    (show run_locally w2flow none = Except.ok
      (w2r, (⟨[⟨22, 1, Val.vint 2⟩, ⟨21, 1, Val.vint 1⟩], [], 0⟩ : JobStore),
       [Event.start 21 1, Event.finish 21 1, Event.start 22 1, Event.finish 22 1])
      by rfl)
    (show ((22 : Nat), (1 : Nat),
        Outcome.done (⟨Val.vint 2, false, false⟩ : Response)) ∈ w2r
      by simp [w2r])
    (by decide) true
  exact h

/-! ### stop_children cancels every transitive downstream Job (C8) -/

theorem pending_uuid_not_classified {jobs0 : List Job} {store0 : JobStore}
    {st : RunState} (hInv : SchedInv jobs0 store0 st) {j : Job}
    (hj : j ∈ st.pending) :
    j.uuid ∉ st.doneU ∧ j.uuid ∉ st.cancelledU ∧ j.uuid ∉ st.failedU := by
  have hd := List.disjoint_of_nodup_append hInv.nodup_all
  have hpm : j.uuid ∈ st.pending.map Job.uuid := List.mem_map_of_mem Job.uuid hj
  refine ⟨?_, ?_, ?_⟩ <;> intro hu
  · rcases hInv.class_resp _ (Or.inl hu) with ⟨i, o, ho⟩
    exact hd (List.mem_map.mpr ⟨_, ho, rfl⟩) hpm
  · rcases hInv.class_resp _ (Or.inr (Or.inl hu)) with ⟨i, o, ho⟩
    exact hd (List.mem_map.mpr ⟨_, ho, rfl⟩) hpm
  · rcases hInv.class_resp _ (Or.inr (Or.inr hu)) with ⟨i, o, ho⟩
    exact hd (List.mem_map.mpr ⟨_, ho, rfl⟩) hpm

theorem isReadyB_spec {st : RunState} {j : Job} (h : isReadyB st j = true) :
    ∀ u ∈ argUuids j, u ∈ st.doneU ∨ ∀ p ∈ st.pending, p.uuid ≠ u := by
  simp only [isReadyB, List.all_eq_true, decide_eq_true_eq] at h
  exact h

theorem blockedB_false_spec {st : RunState} {j : Job} (h : blockedB st j = false) :
    ∀ u ∈ argUuids j, u ∉ st.badU := by
  simp only [blockedB, List.any_eq_false, decide_eq_true_eq] at h
  exact h

theorem mem_badU_of_failed {st : RunState} {u : Nat} (h : u ∈ st.failedU) :
    u ∈ st.badU := List.mem_append_left _ (List.mem_append_left _ h)

theorem mem_badU_of_cancelled {st : RunState} {u : Nat} (h : u ∈ st.cancelledU) :
    u ∈ st.badU := List.mem_append_left _ (List.mem_append_right _ h)

theorem mem_badU_of_stopped {st : RunState} {u : Nat} (h : u ∈ st.stoppedU) :
    u ∈ st.badU := List.mem_append_right _ h

theorem ready_not_downstream {jobs0 : List Job} {store0 : JobStore} {st : RunState}
    {A : Job} (hInv : SchedInv jobs0 store0 st) (hSt : St8 jobs0 A st)
    (hnb : ∀ x ∈ st.pending, blockedB st x = false)
    {j : Job} (hj : j ∈ st.pending) (hready : isReadyB st j = true) :
    ¬ Downstream jobs0 A j := by
  intro hD
  have hready' := isReadyB_spec hready
  have hnbj := blockedB_false_spec (hnb j hj)
  cases hD with
  | direct _ hmem href =>
      rcases hSt.2 with hAp | hstop | hfail | hcan
      · rcases hready' A.uuid href with hd | hall
        · exact (pending_uuid_not_classified hInv hAp).1 hd
        · exact hall A hAp rfl
      · exact hnbj A.uuid href (mem_badU_of_stopped hstop)
      · exact hnbj A.uuid href (mem_badU_of_failed hfail)
      · exact hnbj A.uuid href (mem_badU_of_cancelled hcan)
  | step bMid _ hDmid hmem href =>
      rcases hSt.1 bMid hDmid with hbp | ⟨_, hbc⟩
      · rcases hready' bMid.uuid href with hd | hall
        · exact (pending_uuid_not_classified hInv hbp).1 hd
        · exact hall bMid hbp rfl
      · exact hnbj bMid.uuid href (mem_badU_of_cancelled hbc)

theorem st8_stCancel {jobs0 : List Job} {A : Job} {st : RunState}
    (hSt : St8 jobs0 A st) {l1 l2 : List Job} {j : Job}
    (hsplit : st.pending = l1 ++ j :: l2) :
    St8 jobs0 A (stCancel st j (l1 ++ l2)) := by
  constructor
  · intro B hD
    rcases hSt.1 B hD with hp | ⟨hr, hc⟩
    · rw [hsplit] at hp
      rcases List.mem_append.mp hp with h | h
      · exact Or.inl (List.mem_append_left _ h)
      · rcases List.mem_cons.mp h with rfl | h2
        · exact Or.inr ⟨List.mem_append_right _ (List.mem_singleton.mpr rfl),
            List.mem_cons_self _ _⟩
        · exact Or.inl (List.mem_append_right _ h2)
    · exact Or.inr ⟨List.mem_append_left _ hr, List.mem_cons_of_mem _ hc⟩
  · rcases hSt.2 with hp | hstop | hfail | hcan
    · rw [hsplit] at hp
      rcases List.mem_append.mp hp with h | h
      · exact Or.inl (List.mem_append_left _ h)
      · rcases List.mem_cons.mp h with heq | h2
        · exact Or.inr (Or.inr (Or.inr (by rw [heq]; exact List.mem_cons_self _ _)))
        · exact Or.inl (List.mem_append_right _ h2)
    · exact Or.inr (Or.inl hstop)
    · exact Or.inr (Or.inr (Or.inl hfail))
    · exact Or.inr (Or.inr (Or.inr (List.mem_cons_of_mem _ hcan)))

theorem st8_stFail {jobs0 : List Job} {A : Job} {st : RunState}
    (hSt : St8 jobs0 A st) {l1 l2 : List Job} {j : Job}
    (hsplit : st.pending = l1 ++ j :: l2) (hjD : ¬ Downstream jobs0 A j) :
    St8 jobs0 A (stFail st j (l1 ++ l2)) := by
  constructor
  · intro B hD
    rcases hSt.1 B hD with hp | ⟨hr, hc⟩
    · have hBj : B ≠ j := by
        intro heq
        exact hjD (heq ▸ hD)
      rw [hsplit] at hp
      rcases List.mem_append.mp hp with h | h
      · exact Or.inl (List.mem_append_left _ h)
      · rcases List.mem_cons.mp h with heq | h2
        · exact absurd heq hBj
        · exact Or.inl (List.mem_append_right _ h2)
    · exact Or.inr ⟨List.mem_append_left _ hr, hc⟩
  · by_cases hAj : A = j
    · exact Or.inr (Or.inr (Or.inl (by rw [hAj]; exact List.mem_cons_self _ _)))
    · rcases hSt.2 with hp | hstop | hfail | hcan
      · rw [hsplit] at hp
        rcases List.mem_append.mp hp with h | h
        · exact Or.inl (List.mem_append_left _ h)
        · rcases List.mem_cons.mp h with heq | h2
          · exact absurd heq hAj
          · exact Or.inl (List.mem_append_right _ h2)
      · exact Or.inr (Or.inl hstop)
      · exact Or.inr (Or.inr (Or.inl (List.mem_cons_of_mem _ hfail)))
      · exact Or.inr (Or.inr (Or.inr hcan))

theorem st8_stSucc {jobs0 : List Job} {A : Job} {st : RunState} {resp : Response}
    (hSt : St8 jobs0 A st) {l1 l2 : List Job} {j : Job}
    (hsplit : st.pending = l1 ++ j :: l2) (hjD : ¬ Downstream jobs0 A j)
    (hAj : A = j → resp.stopChildren = true) :
    St8 jobs0 A (stSucc st j (l1 ++ l2) resp) := by
  constructor
  · intro B hD
    rcases hSt.1 B hD with hp | ⟨hr, hc⟩
    · have hBj : B ≠ j := by
        intro heq
        exact hjD (heq ▸ hD)
      rw [hsplit] at hp
      rcases List.mem_append.mp hp with h | h
      · exact Or.inl (List.mem_append_left _ h)
      · rcases List.mem_cons.mp h with heq | h2
        · exact absurd heq hBj
        · exact Or.inl (List.mem_append_right _ h2)
    · exact Or.inr ⟨List.mem_append_left _ hr, hc⟩
  · by_cases hAj2 : A = j
    · refine Or.inr (Or.inl ?_)
      simp only [stSucc, if_pos (hAj hAj2)]
      rw [hAj2]
      exact List.mem_cons_self _ _
    · have hstopmem : ∀ u, u ∈ st.stoppedU → u ∈ (stSucc st j (l1 ++ l2) resp).stoppedU := by
        intro u hu
        simp only [stSucc]
        by_cases hsc : resp.stopChildren
        · rw [if_pos hsc]; exact List.mem_cons_of_mem _ hu
        · rw [if_neg hsc]; exact hu
      rcases hSt.2 with hp | hstop | hfail | hcan
      · rw [hsplit] at hp
        rcases List.mem_append.mp hp with h | h
        · exact Or.inl (List.mem_append_left _ h)
        · rcases List.mem_cons.mp h with heq | h2
          · exact absurd heq hAj2
          · exact Or.inl (List.mem_append_right _ h2)
      · exact Or.inr (Or.inl (hstopmem _ hstop))
      · exact Or.inr (Or.inr (Or.inl hfail))
      · exact Or.inr (Or.inr (Or.inr hcan))

theorem st8_drain {jobs0 : List Job} {A : Job} :
    ∀ (n : Nat) {st : RunState}, St8 jobs0 A st → St8 jobs0 A (drain n st) := by
  intro n
  induction n with
  | zero => intro st h; exact h
  | succ n ih =>
      intro st h
      cases hB : extractFirst (blockedB st) st.pending with
      | some y =>
          rcases y with ⟨l1, j, l2⟩
          rcases extractFirst_some hB with ⟨hsplit, _, _⟩
          simp only [drain, hB]
          exact ih (st8_stCancel h hsplit)
      | none =>
          simp only [drain, hB]
          exact h

theorem downstream_cancelled {jobs0 : List Job} {A : Job} {st : RunState}
    (hSt : St8 jobs0 A st)
    (hnb : ∀ x ∈ st.pending, blockedB st x = false)
    (hbad : A.uuid ∈ st.badU) :
    ∀ B, Downstream jobs0 A B →
      (B.uuid, B.index, Outcome.cancelled) ∈ st.responses ∧
        B.uuid ∈ st.cancelledU := by
  intro B hD
  induction hD with
  | direct b hm href =>
      rcases hSt.1 b (Downstream.direct b hm href) with hp | hc
      · exact absurd hbad (blockedB_false_spec (hnb b hp) A.uuid href)
      · exact hc
  | step b c hD2 hm href ih =>
      rcases hSt.1 c (Downstream.step b c hD2 hm href) with hp | hc
      · exact absurd (mem_badU_of_cancelled ih.2)
          (blockedB_false_spec (hnb c hp) b.uuid href)
      · exact hc

theorem runSched_stop_children {jobs0 : List Job} {store0 : JobStore} {A : Job}
    {respA : Response} (hsc : respA.stopChildren = true) :
    ∀ (fuel : Nat) (st : RunState) {r : List (Nat × Nat × Outcome)} {s' : JobStore}
      {t : List Event},
      SchedInv jobs0 store0 st → St8 jobs0 A st →
      runSched fuel st = Except.ok (r, s', t) →
      (A.uuid, A.index, Outcome.done respA) ∈ r →
      ∀ B, Downstream jobs0 A B → (B.uuid, B.index, Outcome.cancelled) ∈ r := by
  intro fuel
  induction fuel with
  | zero =>
      intro st r s' t hInv hSt hrun hmemA B hD
      simp only [runSched] at hrun
      by_cases hemp : st.pending.isEmpty
      · rw [if_pos hemp] at hrun
        simp only [Except.ok.injEq, Prod.mk.injEq] at hrun
        obtain ⟨h1, _, _⟩ := hrun
        subst h1
        rcases hSt.1 B hD with hp | ⟨hr, _⟩
        · rw [List.isEmpty_iff.mp hemp] at hp
          simp at hp
        · exact hr
      · rw [if_neg hemp] at hrun
        simp at hrun
  | succ fuel ih =>
      intro st r s' t hInv hSt hrun hmemA B hD
      have hrnodup : (r.map (fun e => e.1)).Nodup :=
        (runSched_final _ _ hInv hrun).uuid_nodup
      cases hB : extractFirst (blockedB st) st.pending with
      | some y =>
          rcases y with ⟨l1, j, l2⟩
          rcases extractFirst_some hB with ⟨hsplit, _, _⟩
          simp only [runSched, hB] at hrun
          exact ih _ (schedInv_stCancel hInv hsplit) (st8_stCancel hSt hsplit)
            hrun hmemA B hD
      | none =>
          have hnb : ∀ x ∈ st.pending, blockedB st x = false := extractFirst_none hB
          cases hR : extractFirst (isReadyB st) st.pending with
          | some y =>
              rcases y with ⟨l1, j, l2⟩
              rcases extractFirst_some hR with ⟨hsplit, hready, _⟩
              have hjp : j ∈ st.pending := by
                rw [hsplit]; exact List.mem_append_right _ (List.mem_cons_self _ _)
              have hjD : ¬ Downstream jobs0 A j :=
                ready_not_downstream hInv hSt hnb hjp hready
              cases hres : resolveArgs (envOf st) j.args with
              | none =>
                  simp only [runSched, hB, hR, execJob, hres] at hrun
                  exact ih _ (schedInv_stFail hInv hsplit) (st8_stFail hSt hsplit hjD)
                    hrun hmemA B hD
              | some vals =>
                  cases hfn : j.fn.run vals with
                  | none =>
                      simp only [runSched, hB, hR, execJob, hres, hfn] at hrun
                      exact ih _ (schedInv_stFail hInv hsplit) (st8_stFail hSt hsplit hjD)
                        hrun hmemA B hD
                  | some resp =>
                      cases hstop : resp.stopJobflow with
                      | true =>
                          simp only [runSched, hB, hR, execJob, hres, hfn, hstop] at hrun
                          simp only [Except.ok.injEq, Prod.mk.injEq] at hrun
                          obtain ⟨h1, _, _⟩ := hrun
                          subst h1
                          have hAstop : A = j → resp.stopChildren = true := by
                            intro heq
                            have hmem2 : (j.uuid, j.index, Outcome.done resp) ∈
                                (drain (stSucc st j (l1 ++ l2) resp).pending.length
                                  (stSucc st j (l1 ++ l2) resp)).responses :=
                              drain_resp_mono _ _
                                (List.mem_append_right _ (List.mem_singleton.mpr rfl))
                            have heq2 := List.inj_on_of_nodup_map hrnodup hmem2 hmemA
                              (by rw [heq])
                            simp only [Prod.mk.injEq, Outcome.done.injEq] at heq2
                            rw [heq2.2.2]
                            exact hsc
                          have hSt3 : St8 jobs0 A
                              (drain (stSucc st j (l1 ++ l2) resp).pending.length
                                (stSucc st j (l1 ++ l2) resp)) :=
                            st8_drain _ (st8_stSucc hSt hsplit hjD hAstop)
                          have hInv3 : SchedInv jobs0 store0
                              (drain (stSucc st j (l1 ++ l2) resp).pending.length
                                (stSucc st j (l1 ++ l2) resp)) :=
                            schedInv_drain _ (schedInv_stSucc hInv hsplit)
                          have hnb3 := drain_unblocked
                            (stSucc st j (l1 ++ l2) resp).pending.length
                            (stSucc st j (l1 ++ l2) resp) (Nat.le_refl _)
                          have hbad : A.uuid ∈
                              (drain (stSucc st j (l1 ++ l2) resp).pending.length
                                (stSucc st j (l1 ++ l2) resp)).badU :=
                            mem_badU_of_stopped
                              (hInv3.stop_resp A.uuid A.index respA hmemA hsc)
                          exact (downstream_cancelled hSt3 hnb3 hbad B hD).1
                      | false =>
                          simp only [runSched, hB, hR, execJob, hres, hfn, hstop] at hrun
                          have hAstop : A = j → resp.stopChildren = true := by
                            intro heq
                            have hmem2 : (j.uuid, j.index, Outcome.done resp) ∈ r :=
                              runSched_resp_mono _ _ hrun _
                                (List.mem_append_right _ (List.mem_singleton.mpr rfl))
                            have heq2 := List.inj_on_of_nodup_map hrnodup hmem2 hmemA
                              (by rw [heq])
                            simp only [Prod.mk.injEq, Outcome.done.injEq] at heq2
                            rw [heq2.2.2]
                            exact hsc
                          exact ih _ (schedInv_stSucc hInv hsplit)
                            (st8_stSucc hSt hsplit hjD hAstop) hrun hmemA B hD
          | none =>
              simp only [runSched, hB, hR] at hrun
              by_cases hemp : st.pending.isEmpty
              · rw [if_pos hemp] at hrun
                simp only [Except.ok.injEq, Prod.mk.injEq] at hrun
                obtain ⟨h1, _, _⟩ := hrun
                subst h1
                rcases hSt.1 B hD with hp | ⟨hr, _⟩
                · rw [List.isEmpty_iff.mp hemp] at hp
                  simp at hp
                · exact hr
              · rw [if_neg hemp] at hrun
                simp at hrun

theorem downstream_mem {jobs : List Job} {a b : Job} (h : Downstream jobs a b) :
    b ∈ jobs := by
  cases h with
  | direct _ hm _ => exact hm
  | step _ _ _ hm _ => exact hm

/-- C8: if a Job A's Response — the one recorded for A in the returned
mapping — sets stop_children, then every Job transitively downstream of A is
recorded as cancelled — skipped, not marked failed — is never started, and a
subsequent `get_output` on its uuid fails with OutputNotFoundError.  No
assumption is made about stop_jobflow: per the spec the step-7 downstream
cancellations precede the step-8 stop_jobflow break, so the guarantee also
covers a Response that sets both flags. -/
theorem stop_children_cancels (f : Flow) (store? : Option JobStore)
    (hnd : (f.allJobs.map Job.uuid).Nodup)
    (hfresh : ∀ mrec ∈ (store?.getD emptyStore).main, ∀ j ∈ f.allJobs,
      mrec.uuid ≠ j.uuid)
    {A : Job} (hA : A ∈ f.allJobs) {respA : Response}
    {r : List (Nat × Nat × Outcome)} {s' : JobStore} {t : List Event}
    (hrun : run_locally f store? = Except.ok (r, s', t))
    (hAr : (A.uuid, A.index, Outcome.done respA) ∈ r)
    (hsc : respA.stopChildren = true) (load : Bool) :
    ∀ B, Downstream f.allJobs A B →
      (B.uuid, B.index, Outcome.cancelled) ∈ r ∧
      (∀ i2, Event.start B.uuid i2 ∉ t) ∧
      s'.get_output B.uuid none load = Except.error JFError.outputNotFound := by
  simp only [run_locally] at hrun
  have hInv0 := schedInv_init f.allJobs (store?.getD emptyStore) hnd
  have hSt0 : St8 f.allJobs A (initState f.allJobs (store?.getD emptyStore)) :=
    ⟨fun B hD => Or.inl (downstream_mem hD), Or.inl hA⟩
  have hfin := runSched_final _ _ hInv0 hrun
  have hcanc := runSched_stop_children hsc _ _ hInv0 hSt0 hrun hAr
  intro B hD
  have hBr := hcanc B hD
  have hBjobs : B ∈ f.allJobs := downstream_mem hD
  refine ⟨hBr, ?_, ?_⟩
  · intro i2 hstart
    rcases hfin.start_resp _ _ hstart with ⟨o, ho, hne⟩
    have heq := List.inj_on_of_nodup_map hfin.uuid_nodup ho hBr rfl
    simp only [Prod.mk.injEq] at heq
    exact hne heq.2.2
  · have hnone : ∀ mrec ∈ s'.main, mrec.uuid ≠ B.uuid := by
      intro mrec hm heq
      rcases (hfin.store_char mrec).mp hm with h0 | ⟨resp2, hm2, _⟩
      · exact hfresh mrec h0 B hBjobs heq
      · have h3 := List.inj_on_of_nodup_map hfin.uuid_nodup hm2 hBr (by simp [heq])
        simp only [Prod.mk.injEq] at h3
        exact Outcome.noConfusion h3.2.2
    have hbn : bestIndex B.uuid s'.main = none := by
      cases hb : bestIndex B.uuid s'.main with
      | none => rfl
      | some m =>
          rcases ((bestIndex_spec _ _).2 m hb).1 with ⟨r2, hr2, hru, _⟩
          exact absurd hru (hnone r2 hr2)
    simp [JobStore.get_output, hbn]

/-- Witness for C8, exercising the dual-flag case: the stopper's Response
requests both stop_children and stop_jobflow; the step-7 cancellations are
recorded before the step-8 halt, so both the direct and the transitive
downstream Jobs are recorded cancelled, the direct child never starts, and
its output is absent from the store. -/
theorem stop_children_cancels_w :
    ((32 : Nat), (1 : Nat), Outcome.cancelled) ∈ z8r ∧
    ((33 : Nat), (1 : Nat), Outcome.cancelled) ∈ z8r ∧
    (Event.start 32 1 ∉ [Event.start 31 1, Event.finish 31 1]) ∧
    ((⟨[⟨31, 1, Val.vint 7⟩], [], 0⟩ : JobStore).get_output 32 none true =
      Except.error JFError.outputNotFound) := by
  have h := stop_children_cancels z8flow none (by decide) (by simp [emptyStore])
    (show z8A ∈ z8flow.allJobs by decide)
    (show run_locally z8flow none = Except.ok
      (z8r, (⟨[⟨31, 1, Val.vint 7⟩], [], 0⟩ : JobStore),
       [Event.start 31 1, Event.finish 31 1])
      by rfl)
    (show (z8A.uuid, z8A.index,
        Outcome.done (⟨Val.vint 7, true, true⟩ : Response)) ∈ z8r by decide)
    (by rfl) true
  have hB := h w8B (Downstream.direct _ (by decide) (by decide))
  have hC := h w8C (Downstream.step w8B _
    (Downstream.direct _ (by decide) (by decide)) (by decide) (by decide))
  exact ⟨hB.1, hC.1, hB.2.1 1, hB.2.2⟩

/-! ### Dependency respect (C3) -/

theorem runSched_trace_mono :
    ∀ (fuel : Nat) (st : RunState) {r : List (Nat × Nat × Outcome)} {s' : JobStore}
      {t : List Event}, runSched fuel st = Except.ok (r, s', t) →
      ∃ ext, t = st.trace ++ ext := by
  intro fuel
  induction fuel with
  | zero =>
      intro st r s' t hrun
      simp only [runSched] at hrun
      by_cases hemp : st.pending.isEmpty
      · rw [if_pos hemp] at hrun
        simp only [Except.ok.injEq, Prod.mk.injEq] at hrun
        exact ⟨[], by rw [← hrun.2.2]; simp⟩
      · rw [if_neg hemp] at hrun
        simp at hrun
  | succ fuel ih =>
      intro st r s' t hrun
      cases hB : extractFirst (blockedB st) st.pending with
      | some y =>
          simp only [runSched, hB] at hrun
          rcases ih _ hrun with ⟨ext, hext⟩
          exact ⟨ext, hext⟩
      | none =>
          cases hR : extractFirst (isReadyB st) st.pending with
          | some y =>
              cases hres : resolveArgs (envOf st) y.2.1.args with
              | none =>
                  simp only [runSched, hB, hR, execJob, hres] at hrun
                  rcases ih _ hrun with ⟨ext, hext⟩
                  refine ⟨Event.start y.2.1.uuid y.2.1.index :: ext, ?_⟩
                  rw [hext]
                  simp [stFail]
              | some vals =>
                  cases hfn : y.2.1.fn.run vals with
                  | none =>
                      simp only [runSched, hB, hR, execJob, hres, hfn] at hrun
                      rcases ih _ hrun with ⟨ext, hext⟩
                      refine ⟨Event.start y.2.1.uuid y.2.1.index :: ext, ?_⟩
                      rw [hext]
                      simp [stFail]
                  | some resp =>
                      cases hstop : resp.stopJobflow with
                      | true =>
                          simp only [runSched, hB, hR, execJob, hres, hfn, hstop] at hrun
                          simp only [Except.ok.injEq, Prod.mk.injEq] at hrun
                          refine ⟨[Event.start y.2.1.uuid y.2.1.index,
                            Event.finish y.2.1.uuid y.2.1.index], ?_⟩
                          rw [← hrun.2.2, drain_trace]
                          simp [stSucc]
                      | false =>
                          simp only [runSched, hB, hR, execJob, hres, hfn, hstop] at hrun
                          rcases ih _ hrun with ⟨ext, hext⟩
                          refine ⟨Event.start y.2.1.uuid y.2.1.index ::
                            Event.finish y.2.1.uuid y.2.1.index :: ext, ?_⟩
                          rw [hext]
                          simp [stSucc]
          | none =>
              simp only [runSched, hB, hR] at hrun
              by_cases hemp : st.pending.isEmpty
              · rw [if_pos hemp] at hrun
                simp only [Except.ok.injEq, Prod.mk.injEq] at hrun
                exact ⟨[], by rw [← hrun.2.2]; simp⟩
              · rw [if_neg hemp] at hrun
                simp at hrun

theorem jobs_uuid_inj {jobs0 : List Job} (hnd0 : (jobs0.map Job.uuid).Nodup)
    {a b : Job} (ha : a ∈ jobs0) (hb : b ∈ jobs0) (h : a.uuid = b.uuid) : a = b :=
  List.inj_on_of_nodup_map hnd0 ha hb h

theorem finish_before_of_ready {jobs0 : List Job} {store0 : JobStore}
    {st : RunState} {A B : Job} (hInv : SchedInv jobs0 store0 st)
    (hAjobs : A ∈ jobs0) (hdep : A.uuid ∈ argUuids B)
    (hnb : ∀ x ∈ st.pending, blockedB st x = false)
    (hBp : B ∈ st.pending) (hready : isReadyB st B = true) :
    A.uuid ∈ st.doneU := by
  have hready' := isReadyB_spec hready
  have hnbB := blockedB_false_spec (hnb B hBp)
  rcases hready' A.uuid hdep with hd | hall
  · exact hd
  · rcases hInv.acct A hAjobs with hAp | ⟨o, ho⟩
    · exact absurd rfl (hall A hAp)
    · rcases hInv.resp_class _ _ _ ho with ⟨⟨resp, _⟩, hdone⟩ | ⟨_, hcan⟩ | ⟨_, hfail⟩
      · exact hdone
      · exact absurd (mem_badU_of_cancelled hcan) (hnbB A.uuid hdep)
      · exact absurd (mem_badU_of_failed hfail) (hnbB A.uuid hdep)

theorem finish_at_prefix {st : RunState} {t : List Event} {u : Nat}
    (hd : ∃ k, Event.finish u k ∈ st.trace) {ext : List Event}
    (ht : t = st.trace ++ ext) :
    ∃ q k, q < st.trace.length ∧ t[q]? = some (Event.finish u k) := by
  rcases hd with ⟨k, hk⟩
  rcases List.mem_iff_getElem?.mp hk with ⟨q, hq⟩
  have hqlt : q < st.trace.length := by
    rcases List.getElem?_eq_some_iff.mp hq with ⟨h, _⟩
    exact h
  refine ⟨q, k, hqlt, ?_⟩
  rw [ht, List.getElem?_append, if_pos hqlt]
  exact hq

theorem runSched_dep_order {jobs0 : List Job} {store0 : JobStore} {A B : Job}
    (hnd0 : (jobs0.map Job.uuid).Nodup) (hAjobs : A ∈ jobs0) (hBjobs : B ∈ jobs0)
    (hdep : A.uuid ∈ argUuids B) :
    ∀ (fuel : Nat) (st : RunState) {r : List (Nat × Nat × Outcome)} {s' : JobStore}
      {t : List Event},
      SchedInv jobs0 store0 st → runSched fuel st = Except.ok (r, s', t) →
      ∀ p, t[p]? = some (Event.start B.uuid B.index) → st.trace.length ≤ p →
        ∃ q k, q < p ∧ t[q]? = some (Event.finish A.uuid k) := by
  intro fuel
  induction fuel with
  | zero =>
      intro st r s' t hInv hrun p hp hlen
      simp only [runSched] at hrun
      by_cases hemp : st.pending.isEmpty
      · rw [if_pos hemp] at hrun
        simp only [Except.ok.injEq, Prod.mk.injEq] at hrun
        rw [← hrun.2.2] at hp
        rw [List.getElem?_eq_none (by omega : st.trace.length ≤ p)] at hp
        exact Option.noConfusion hp
      · rw [if_neg hemp] at hrun
        simp at hrun
  | succ fuel ih =>
      intro st r s' t hInv hrun p hp hlen
      cases hB : extractFirst (blockedB st) st.pending with
      | some y =>
          rcases y with ⟨l1, j, l2⟩
          rcases extractFirst_some hB with ⟨hsplit, _, _⟩
          simp only [runSched, hB] at hrun
          exact ih _ (schedInv_stCancel hInv hsplit) hrun p hp hlen
      | none =>
          have hnb : ∀ x ∈ st.pending, blockedB st x = false := extractFirst_none hB
          cases hR : extractFirst (isReadyB st) st.pending with
          | some y =>
              rcases y with ⟨l1, j, l2⟩
              rcases extractFirst_some hR with ⟨hsplit, hready, _⟩
              have hjp : j ∈ st.pending := by
                rw [hsplit]; exact List.mem_append_right _ (List.mem_cons_self _ _)
              have hcore : ∀ {ext : List Event}, t = st.trace ++ ext →
                  st.trace.length ≤ p → j.uuid = B.uuid →
                  ∃ q k, q < p ∧ t[q]? = some (Event.finish A.uuid k) := by
                intro ext ht hple heq
                have hjB : j = B := jobs_uuid_inj hnd0 (hInv.pend_sub j hjp) hBjobs heq
                have hd : A.uuid ∈ st.doneU := by
                  rw [hjB] at hjp hready
                  exact finish_before_of_ready hInv hAjobs hdep hnb hjp hready
                rcases finish_at_prefix (hInv.done_finish A.uuid hd) ht
                  with ⟨q, k, hq, hqv⟩
                exact ⟨q, k, by omega, hqv⟩
              cases hres : resolveArgs (envOf st) j.args with
              | none =>
                  simp only [runSched, hB, hR, execJob, hres] at hrun
                  rcases runSched_trace_mono _ _ hrun with ⟨ext, ht⟩
                  have ht' : t = st.trace ++ (Event.start j.uuid j.index :: ext) := by
                    rw [ht]; simp [stFail]
                  rcases Nat.eq_or_lt_of_le hlen with heq | hlt
                  · subst heq
                    have hslot : t[st.trace.length]? =
                        some (Event.start j.uuid j.index) := by
                      rw [ht', List.getElem?_append_right (Nat.le_refl _)]
                      simp
                    have hsv := hslot.symm.trans hp
                    simp only [Option.some.injEq, Event.start.injEq] at hsv
                    exact hcore ht' (Nat.le_refl _) hsv.1
                  · refine ih _ (schedInv_stFail hInv hsplit) hrun p hp ?_
                    simp only [stFail, List.length_append, List.length_singleton]
                    omega
              | some vals =>
                  cases hfn : j.fn.run vals with
                  | none =>
                      simp only [runSched, hB, hR, execJob, hres, hfn] at hrun
                      rcases runSched_trace_mono _ _ hrun with ⟨ext, ht⟩
                      have ht' : t = st.trace ++
                          (Event.start j.uuid j.index :: ext) := by
                        rw [ht]; simp [stFail]
                      rcases Nat.eq_or_lt_of_le hlen with heq | hlt
                      · subst heq
                        have hslot : t[st.trace.length]? =
                            some (Event.start j.uuid j.index) := by
                          rw [ht', List.getElem?_append_right (Nat.le_refl _)]
                          simp
                        have hsv := hslot.symm.trans hp
                        simp only [Option.some.injEq, Event.start.injEq] at hsv
                        exact hcore ht' (Nat.le_refl _) hsv.1
                      · refine ih _ (schedInv_stFail hInv hsplit) hrun p hp ?_
                        simp only [stFail, List.length_append, List.length_singleton]
                        omega
                  | some resp =>
                      cases hstop : resp.stopJobflow with
                      | true =>
                          simp only [runSched, hB, hR, execJob, hres, hfn, hstop] at hrun
                          simp only [Except.ok.injEq, Prod.mk.injEq] at hrun
                          have ht' : t = st.trace ++
                              (Event.start j.uuid j.index ::
                                Event.finish j.uuid j.index :: []) := by
                            rw [← hrun.2.2, drain_trace]; simp [stSucc]
                          rcases Nat.eq_or_lt_of_le hlen with heq | hlt
                          · subst heq
                            have hslot : t[st.trace.length]? =
                                some (Event.start j.uuid j.index) := by
                              rw [ht', List.getElem?_append_right (Nat.le_refl _)]
                              simp
                            have hsv := hslot.symm.trans hp
                            simp only [Option.some.injEq, Event.start.injEq] at hsv
                            exact hcore ht' (Nat.le_refl _) hsv.1
                          · rcases Nat.eq_or_lt_of_le hlt with heq2 | hlt2
                            · subst heq2
                              have hslot : t[st.trace.length + 1]? =
                                  some (Event.finish j.uuid j.index) := by
                                rw [ht', List.getElem?_append_right (by omega)]
                                have harith : st.trace.length + 1 - st.trace.length = 1 := by
                                  omega
                                rw [harith]
                                simp
                              have hsv := hslot.symm.trans hp
                              simp at hsv
                            · exfalso
                              have htl : t.length = st.trace.length + 2 := by
                                rw [ht']
                                simp
                              rw [List.getElem?_eq_none (by omega)] at hp
                              exact Option.noConfusion hp
                      | false =>
                          simp only [runSched, hB, hR, execJob, hres, hfn, hstop] at hrun
                          rcases runSched_trace_mono _ _ hrun with ⟨ext, ht⟩
                          have ht' : t = st.trace ++
                              (Event.start j.uuid j.index ::
                                Event.finish j.uuid j.index :: ext) := by
                            rw [ht]; simp [stSucc]
                          rcases Nat.eq_or_lt_of_le hlen with heq | hlt
                          · subst heq
                            have hslot : t[st.trace.length]? =
                                some (Event.start j.uuid j.index) := by
                              rw [ht', List.getElem?_append_right (Nat.le_refl _)]
                              simp
                            have hsv := hslot.symm.trans hp
                            simp only [Option.some.injEq, Event.start.injEq] at hsv
                            exact hcore ht' (Nat.le_refl _) hsv.1
                          · rcases Nat.eq_or_lt_of_le hlt with heq2 | hlt2
                            · subst heq2
                              have hslot : t[st.trace.length + 1]? =
                                  some (Event.finish j.uuid j.index) := by
                                rw [ht', List.getElem?_append_right (by omega)]
                                have harith : st.trace.length + 1 - st.trace.length = 1 := by
                                  omega
                                rw [harith]
                                simp
                              have hsv := hslot.symm.trans hp
                              simp at hsv
                            · refine ih _ (schedInv_stSucc hInv hsplit) hrun p hp ?_
                              simp only [stSucc, List.length_append]
                              simp
                              omega
          | none =>
              simp only [runSched, hB, hR] at hrun
              by_cases hemp : st.pending.isEmpty
              · rw [if_pos hemp] at hrun
                simp only [Except.ok.injEq, Prod.mk.injEq] at hrun
                rw [← hrun.2.2] at hp
                rw [List.getElem?_eq_none (by omega : st.trace.length ≤ p)] at hp
                exact Option.noConfusion hp
              · rw [if_neg hemp] at hrun
                simp at hrun

/-- C3: in every execution log produced by the scheduler, if Job B's
arguments contain an OutputReference to Job A (both in the Flow, uuids
distinct), then wherever B starts, a completion of A — its output persisted,
logged as a finish event — occurs strictly earlier: a Job never starts
before the Jobs it references have completed. -/
theorem dependency_respect (f : Flow) (store? : Option JobStore)
    (hnd : (f.allJobs.map Job.uuid).Nodup)
    {A B : Job} (hA : A ∈ f.allJobs) (hB : B ∈ f.allJobs)
    (hdep : A.uuid ∈ argUuids B)
    {r : List (Nat × Nat × Outcome)} {s' : JobStore} {t : List Event}
    (hrun : run_locally f store? = Except.ok (r, s', t)) :
    ∀ p : Nat, t[p]? = some (Event.start B.uuid B.index) →
      ∃ q k, q < p ∧ t[q]? = some (Event.finish A.uuid k) := by
  simp only [run_locally] at hrun
  intro p hp
  exact runSched_dep_order hnd hA hB hdep _ _
    (schedInv_init f.allJobs (store?.getD emptyStore) hnd) hrun p hp
    (by simp [initState])

/-- Witness for C3: in the concrete two-job run of scenario S1, job b starts
at log position 2 and job a's finish occurs strictly before it. -/
theorem dependency_respect_w :
    ∃ (q k : Nat), q < 2 ∧
      [Event.start 1 1, Event.finish 1 1, Event.start 2 1,
        Event.finish 2 1][q]? = some (Event.finish 1 k) := by
  have h := dependency_respect s1flow none (by decide)
    (show s1a ∈ s1flow.allJobs by decide)
    (show s1b ∈ s1flow.allJobs by decide)
    (by decide)
    (show run_locally s1flow none = Except.ok
      ([(1, 1, Outcome.done ⟨Val.vint 6, false, false⟩),
        (2, 1, Outcome.done ⟨Val.vint 9, false, false⟩)],
       (⟨[⟨2, 1, Val.vint 9⟩, ⟨1, 1, Val.vint 6⟩], [], 0⟩ : JobStore),
       [Event.start 1 1, Event.finish 1 1, Event.start 2 1, Event.finish 2 1])
      by rfl)
  exact h 2 (by rfl)

/-! ### Insertion order among ready Jobs (C4) -/

theorem nodup_getElem?_inj {α : Type} {l : List α} (h : l.Nodup) {m n : Nat} {x : α}
    (hm : l[m]? = some x) (hn : l[n]? = some x) : m = n := by
  rcases List.getElem?_eq_some_iff.mp hm with ⟨h1, e1⟩
  rcases List.getElem?_eq_some_iff.mp hn with ⟨h2, e2⟩
  exact (List.Nodup.getElem_inj_iff h).mp (by rw [e1, e2])

theorem nodup_uuid_ne {l : List Job} (h : (l.map Job.uuid).Nodup)
    {m n : Nat} {a b : Job} (hm : l[m]? = some a) (hn : l[n]? = some b)
    (hmn : m ≠ n) : a.uuid ≠ b.uuid := by
  intro heq
  have hm2 : (l.map Job.uuid)[m]? = some a.uuid := by
    rw [List.getElem?_map, hm]; rfl
  have hn2 : (l.map Job.uuid)[n]? = some a.uuid := by
    rw [List.getElem?_map, hn, heq]; rfl
  exact hmn (nodup_getElem?_inj h hm2 hn2)

theorem runSched_no_foreign_events {u : Nat} :
    ∀ (fuel : Nat) (st : RunState) {r : List (Nat × Nat × Outcome)} {s' : JobStore}
      {t : List Event},
      (∀ j ∈ st.pending, j.uuid ≠ u) →
      runSched fuel st = Except.ok (r, s', t) →
      ∀ p : Nat, st.trace.length ≤ p → ∀ e, t[p]? = some e → eventUuid e ≠ u := by
  intro fuel
  induction fuel with
  | zero =>
      intro st r s' t hne hrun p hlen e he
      simp only [runSched] at hrun
      by_cases hemp : st.pending.isEmpty
      · rw [if_pos hemp] at hrun
        simp only [Except.ok.injEq, Prod.mk.injEq] at hrun
        rw [← hrun.2.2] at he
        rw [List.getElem?_eq_none hlen] at he
        exact Option.noConfusion he
      · rw [if_neg hemp] at hrun
        simp at hrun
  | succ fuel ih =>
      intro st r s' t hne hrun p hlen e he
      cases hB : extractFirst (blockedB st) st.pending with
      | some y =>
          rcases y with ⟨l1, j, l2⟩
          rcases extractFirst_some hB with ⟨hsplit, _, _⟩
          simp only [runSched, hB] at hrun
          have hne' : ∀ jj ∈ (stCancel st j (l1 ++ l2)).pending, jj.uuid ≠ u := by
            intro jj hjj
            apply hne
            rw [hsplit]
            rcases List.mem_append.mp hjj with h2 | h2
            · exact List.mem_append_left _ h2
            · exact List.mem_append_right _ (List.mem_cons_of_mem _ h2)
          exact ih _ hne' hrun p hlen e he
      | none =>
          cases hR : extractFirst (isReadyB st) st.pending with
          | some y =>
              rcases y with ⟨l1, j, l2⟩
              rcases extractFirst_some hR with ⟨hsplit, _, _⟩
              have hjp : j ∈ st.pending := by
                rw [hsplit]; exact List.mem_append_right _ (List.mem_cons_self _ _)
              have hjne : j.uuid ≠ u := hne j hjp
              have hne' : ∀ jj, jj ∈ l1 ++ l2 → jj.uuid ≠ u := by
                intro jj hjj
                apply hne
                rw [hsplit]
                rcases List.mem_append.mp hjj with h2 | h2
                · exact List.mem_append_left _ h2
                · exact List.mem_append_right _ (List.mem_cons_of_mem _ h2)
              cases hres : resolveArgs (envOf st) j.args with
              | none =>
                  simp only [runSched, hB, hR, execJob, hres] at hrun
                  rcases Nat.eq_or_lt_of_le hlen with heq | hlt
                  · subst heq
                    rcases runSched_trace_mono _ _ hrun with ⟨ext, ht⟩
                    have hslot : t[st.trace.length]? =
                        some (Event.start j.uuid j.index) := by
                      rw [ht]
                      simp only [stFail]
                      rw [List.append_assoc, List.getElem?_append_right (Nat.le_refl _)]
                      simp
                    rw [hslot] at he
                    rw [← Option.some.inj he]
                    exact hjne
                  · refine ih _ hne' hrun p ?_ e he
                    simp only [stFail, List.length_append, List.length_singleton]
                    omega
              | some vals =>
                  cases hfn : j.fn.run vals with
                  | none =>
                      simp only [runSched, hB, hR, execJob, hres, hfn] at hrun
                      rcases Nat.eq_or_lt_of_le hlen with heq | hlt
                      · subst heq
                        rcases runSched_trace_mono _ _ hrun with ⟨ext, ht⟩
                        have hslot : t[st.trace.length]? =
                            some (Event.start j.uuid j.index) := by
                          rw [ht]
                          simp only [stFail]
                          rw [List.append_assoc,
                            List.getElem?_append_right (Nat.le_refl _)]
                          simp
                        rw [hslot] at he
                        rw [← Option.some.inj he]
                        exact hjne
                      · refine ih _ hne' hrun p ?_ e he
                        simp only [stFail, List.length_append, List.length_singleton]
                        omega
                  | some resp =>
                      cases hstop : resp.stopJobflow with
                      | true =>
                          simp only [runSched, hB, hR, execJob, hres, hfn, hstop] at hrun
                          simp only [Except.ok.injEq, Prod.mk.injEq] at hrun
                          have ht : t = st.trace ++
                              [Event.start j.uuid j.index,
                               Event.finish j.uuid j.index] := by
                            rw [← hrun.2.2, drain_trace]; simp [stSucc]
                          rw [ht] at he
                          rw [List.getElem?_append_right hlen] at he
                          rcases hpi : p - st.trace.length with _ | pi
                          · rw [hpi] at he
                            simp only [List.getElem?_cons_zero, Option.some.injEq] at he
                            rw [← he]
                            exact hjne
                          · rw [hpi] at he
                            rcases pi with _ | pi2
                            · simp only [List.getElem?_cons_succ,
                                List.getElem?_cons_zero, Option.some.injEq] at he
                              rw [← he]
                              exact hjne
                            · simp at he
                      | false =>
                          simp only [runSched, hB, hR, execJob, hres, hfn, hstop] at hrun
                          rcases runSched_trace_mono _ _ hrun with ⟨ext, ht⟩
                          have ht' : t = st.trace ++
                              (Event.start j.uuid j.index ::
                                Event.finish j.uuid j.index :: ext) := by
                            rw [ht]; simp [stSucc]
                          rcases Nat.eq_or_lt_of_le hlen with heq | hlt
                          · subst heq
                            have hslot : t[st.trace.length]? =
                                some (Event.start j.uuid j.index) := by
                              rw [ht', List.getElem?_append_right (Nat.le_refl _)]
                              simp
                            rw [hslot] at he
                            rw [← Option.some.inj he]
                            exact hjne
                          · rcases Nat.eq_or_lt_of_le hlt with heq2 | hlt2
                            · subst heq2
                              have hslot : t[st.trace.length + 1]? =
                                  some (Event.finish j.uuid j.index) := by
                                rw [ht', List.getElem?_append_right (by omega)]
                                have harith : st.trace.length + 1 - st.trace.length = 1 := by
                                  omega
                                rw [harith]
                                simp
                              rw [hslot] at he
                              rw [← Option.some.inj he]
                              exact hjne
                            · refine ih _ hne' hrun p ?_ e he
                              simp only [stSucc, List.length_append]
                              simp
                              omega
          | none =>
              simp only [runSched, hB, hR] at hrun
              by_cases hemp : st.pending.isEmpty
              · rw [if_pos hemp] at hrun
                simp only [Except.ok.injEq, Prod.mk.injEq] at hrun
                rw [← hrun.2.2] at he
                rw [List.getElem?_eq_none hlen] at he
                exact Option.noConfusion he
              · rw [if_neg hemp] at hrun
                simp at hrun

theorem mem_of_getElem? {α : Type} {l : List α} {n : Nat} {x : α}
    (h : l[n]? = some x) : x ∈ l := by
  rcases List.getElem?_eq_some_iff.mp h with ⟨hlt, hv⟩
  rw [← hv]
  exact List.getElem_mem hlt

theorem getElem?_middle {α : Type} (p1 : List α) (j : α) (p2 : List α) :
    (p1 ++ j :: p2)[p1.length]? = some j := by
  rw [List.getElem?_append_right (Nat.le_refl _)]
  simp

theorem pos_remove {α : Type} {p1 p2 : List α} {j x : α} {n : Nat}
    (hx : (p1 ++ j :: p2)[n]? = some x) (hne : x ≠ j) :
    n ≠ p1.length ∧ (n < p1.length → (p1 ++ p2)[n]? = some x) ∧
      (p1.length < n → (p1 ++ p2)[n - 1]? = some x) := by
  refine ⟨?_, ?_, ?_⟩
  · intro heq
    rw [heq, getElem?_middle] at hx
    exact hne (Option.some.inj hx).symm
  · intro hlt
    rw [List.getElem?_append, if_pos hlt] at hx
    rw [List.getElem?_append, if_pos hlt]
    exact hx
  · intro hgt
    rw [List.getElem?_append_right (by omega : p1.length ≤ n)] at hx
    have h2 : n - p1.length = (n - p1.length - 1) + 1 := by omega
    rw [h2] at hx
    simp only [List.getElem?_cons_succ] at hx
    rw [List.getElem?_append_right (by omega : p1.length ≤ n - 1)]
    have h3 : n - 1 - p1.length = n - p1.length - 1 := by omega
    rw [h3]
    exact hx

theorem bad_stCancel {st : RunState} {j : Job} {np : List Job} :
    ∀ u ∈ (stCancel st j np).badU, u = j.uuid ∨ u ∈ st.badU := by
  intro u hu
  simp only [stCancel, RunState.badU, List.mem_append, List.mem_cons] at hu
  rcases hu with (hf | (rfl | hc)) | hs
  · exact Or.inr (List.mem_append_left _ (List.mem_append_left _ hf))
  · exact Or.inl rfl
  · exact Or.inr (List.mem_append_left _ (List.mem_append_right _ hc))
  · exact Or.inr (List.mem_append_right _ hs)

theorem bad_stFail {st : RunState} {j : Job} {np : List Job} :
    ∀ u ∈ (stFail st j np).badU, u = j.uuid ∨ u ∈ st.badU := by
  intro u hu
  simp only [stFail, RunState.badU, List.mem_append, List.mem_cons] at hu
  rcases hu with ((rfl | hf) | hc) | hs
  · exact Or.inl rfl
  · exact Or.inr (List.mem_append_left _ (List.mem_append_left _ hf))
  · exact Or.inr (List.mem_append_left _ (List.mem_append_right _ hc))
  · exact Or.inr (List.mem_append_right _ hs)

theorem bad_stSucc {st : RunState} {j : Job} {np : List Job} {resp : Response} :
    ∀ u ∈ (stSucc st j np resp).badU, u = j.uuid ∨ u ∈ st.badU := by
  intro u hu
  by_cases hsc : resp.stopChildren
  · simp only [stSucc, RunState.badU, if_pos hsc, List.mem_append,
      List.mem_cons] at hu
    rcases hu with (hf | hc) | (rfl | hs)
    · exact Or.inr (List.mem_append_left _ (List.mem_append_left _ hf))
    · exact Or.inr (List.mem_append_left _ (List.mem_append_right _ hc))
    · exact Or.inl rfl
    · exact Or.inr (List.mem_append_right _ hs)
  · simp only [stSucc, RunState.badU, if_neg hsc, List.mem_append] at hu
    rcases hu with (hf | hc) | hs
    · exact Or.inr (List.mem_append_left _ (List.mem_append_left _ hf))
    · exact Or.inr (List.mem_append_left _ (List.mem_append_right _ hc))
    · exact Or.inr (List.mem_append_right _ hs)

theorem ready_unblocked_step {jobs0 : List Job} {store0 : JobStore} {st : RunState}
    (hInv : SchedInv jobs0 store0 st) {A j : Job} {p1 p2 : List Job}
    (hsplit : st.pending = p1 ++ j :: p2)
    (hready : isReadyB st A = true) (hnblk : blockedB st A = false)
    (st' : RunState) (hpend : st'.pending = p1 ++ p2)
    (hdoneU : ∀ u ∈ st.doneU, u ∈ st'.doneU)
    (hbad : ∀ u ∈ st'.badU, u = j.uuid ∨ u ∈ st.badU) :
    isReadyB st' A = true ∧ blockedB st' A = false := by
  have hready' := isReadyB_spec hready
  have hnblk' := blockedB_false_spec hnblk
  have hjp : j ∈ st.pending := by
    rw [hsplit]; exact List.mem_append_right _ (List.mem_cons_self _ _)
  constructor
  · simp only [isReadyB, List.all_eq_true, decide_eq_true_eq]
    intro u hu
    rcases hready' u hu with hd | hall
    · exact Or.inl (hdoneU u hd)
    · refine Or.inr ?_
      intro pj hpj
      apply hall
      rw [hsplit]
      rw [hpend] at hpj
      rcases List.mem_append.mp hpj with h2 | h2
      · exact List.mem_append_left _ h2
      · exact List.mem_append_right _ (List.mem_cons_of_mem _ h2)
  · simp only [blockedB, List.any_eq_false, decide_eq_true_eq]
    intro u hu
    intro hmem
    rcases hbad u hmem with heq | hold
    · rcases hready' u hu with hd | hall
      · rw [heq] at hd
        exact (pending_uuid_not_classified hInv hjp).1 hd
      · exact hall j hjp heq.symm
    · exact hnblk' u hu hold

theorem slotA {pre t : List Event} {e1 : Event} {rest : List Event}
    (ht : t = pre ++ e1 :: rest) : t[pre.length]? = some e1 := by
  rw [ht, List.getElem?_append_right (Nat.le_refl _)]
  simp

theorem slotB {pre t : List Event} {e1 e2 : Event} {rest : List Event}
    (ht : t = pre ++ e1 :: e2 :: rest) : t[pre.length + 1]? = some e2 := by
  rw [ht, List.getElem?_append_right (by omega : pre.length ≤ pre.length + 1)]
  have h : pre.length + 1 - pre.length = 1 := by omega
  rw [h]
  simp

theorem removed_uuid_fresh {st : RunState}
    (hnodup : (st.pending.map Job.uuid).Nodup)
    {p1 p2 : List Job} {j : Job} (hsplit : st.pending = p1 ++ j :: p2) :
    ∀ jj ∈ p1 ++ p2, jj.uuid ≠ j.uuid := by
  rw [hsplit] at hnodup
  simp only [List.map_append, List.map_cons] at hnodup
  have h2 := List.nodup_middle.mp hnodup
  have h3 : j.uuid ∉ p1.map Job.uuid ++ p2.map Job.uuid := (List.nodup_cons.mp h2).1
  intro jj hjj heq
  apply h3
  rw [← heq]
  rcases List.mem_append.mp hjj with h4 | h4
  · exact List.mem_append_left _ (List.mem_map_of_mem _ h4)
  · exact List.mem_append_right _ (List.mem_map_of_mem _ h4)

theorem runSched_ready_first {jobs0 : List Job} {store0 : JobStore} {A B : Job} :
    ∀ (fuel : Nat) (st : RunState) {r : List (Nat × Nat × Outcome)} {s' : JobStore}
      {t : List Event},
      SchedInv jobs0 store0 st →
      ∀ nA nB : Nat, nA < nB →
      st.pending[nA]? = some A → st.pending[nB]? = some B →
      isReadyB st A = true → blockedB st A = false →
      runSched fuel st = Except.ok (r, s', t) →
      ∀ p : Nat, st.trace.length ≤ p →
        t[p]? = some (Event.start B.uuid B.index) →
        (∃ q : Nat, st.trace.length ≤ q ∧ q < p ∧
          t[q]? = some (Event.start A.uuid A.index)) ∧
        (∀ q2 : Nat, st.trace.length ≤ q2 →
          t[q2]? = some (Event.finish A.uuid A.index) → q2 < p) := by
  intro fuel
  induction fuel with
  | zero =>
      intro st r s' t hInv nA nB horder hnA hnB hready hnblk hrun p hlen hp
      simp only [runSched] at hrun
      by_cases hemp : st.pending.isEmpty
      · rw [if_pos hemp] at hrun
        simp only [Except.ok.injEq, Prod.mk.injEq] at hrun
        rw [← hrun.2.2] at hp
        rw [List.getElem?_eq_none hlen] at hp
        exact Option.noConfusion hp
      · rw [if_neg hemp] at hrun
        simp at hrun
  | succ fuel ih =>
      intro st r s' t hInv nA nB horder hnA hnB hready hnblk hrun p hlen hp
      have hpnodup : (st.pending.map Job.uuid).Nodup := hInv.nodup_all.of_append_right
      have hvnodup : st.pending.Nodup := List.Nodup.of_map Job.uuid hpnodup
      have hABu : A.uuid ≠ B.uuid := nodup_uuid_ne hpnodup hnA hnB (by omega)
      cases hB : extractFirst (blockedB st) st.pending with
      | some y =>
          rcases y with ⟨p1, j, p2⟩
          rcases extractFirst_some hB with ⟨hsplit, hbp, _⟩
          simp only [runSched, hB] at hrun
          have hjA : A ≠ j := by
            intro heq
            rw [← heq] at hbp
            rw [hnblk] at hbp
            exact Bool.noConfusion hbp
          by_cases hjB : j = B
          · subst hjB
            exfalso
            have hforeign : ∀ jj ∈ (stCancel st j (p1 ++ p2)).pending,
                jj.uuid ≠ j.uuid := by
              intro jj hjj
              exact removed_uuid_fresh hpnodup hsplit jj hjj
            exact runSched_no_foreign_events _ _ hforeign hrun p hlen _ hp rfl
          · have hsA : (p1 ++ j :: p2)[nA]? = some A := by rw [← hsplit]; exact hnA
            have hsB : (p1 ++ j :: p2)[nB]? = some B := by rw [← hsplit]; exact hnB
            rcases pos_remove hsA hjA with ⟨hnAne, hAlt, hAgt⟩
            rcases pos_remove hsB (fun h => hjB h.symm) with ⟨hnBne, hBlt, hBgt⟩
            have hru := ready_unblocked_step hInv hsplit hready hnblk
              (stCancel st j (p1 ++ p2)) rfl (fun u hu => hu) bad_stCancel
            have hcont : ∀ (nA2 nB2 : Nat), nA2 < nB2 →
                (p1 ++ p2)[nA2]? = some A → (p1 ++ p2)[nB2]? = some B →
                (∃ q : Nat, st.trace.length ≤ q ∧ q < p ∧
                  t[q]? = some (Event.start A.uuid A.index)) ∧
                (∀ q2 : Nat, st.trace.length ≤ q2 →
                  t[q2]? = some (Event.finish A.uuid A.index) → q2 < p) := by
              intro nA2 nB2 ho2 hA2 hB2
              exact ih _ (schedInv_stCancel hInv hsplit) nA2 nB2 ho2 hA2 hB2
                hru.1 hru.2 hrun p hlen hp
            by_cases hA1 : nA < p1.length
            · by_cases hB1 : nB < p1.length
              · exact hcont nA nB horder (hAlt hA1) (hBlt hB1)
              · exact hcont nA (nB - 1) (by omega) (hAlt hA1) (hBgt (by omega))
            · exact hcont (nA - 1) (nB - 1) (by omega) (hAgt (by omega))
                (hBgt (by omega))
      | none =>
          have hnb : ∀ x ∈ st.pending, blockedB st x = false := extractFirst_none hB
          cases hR : extractFirst (isReadyB st) st.pending with
          | some y =>
              rcases y with ⟨p1, j, p2⟩
              rcases extractFirst_some hR with ⟨hsplit, hrj, hpref⟩
              have hjp : j ∈ st.pending := by
                rw [hsplit]; exact List.mem_append_right _ (List.mem_cons_self _ _)
              have hjB : j ≠ B := by
                intro heq
                subst heq
                have hposj : st.pending[p1.length]? = some j := by
                  rw [hsplit]; exact getElem?_middle p1 j p2
                have hpeq : p1.length = nB := nodup_getElem?_inj hvnodup hposj hnB
                have hAin : A ∈ p1 := by
                  have h2 : (p1 ++ j :: p2)[nA]? = some A := by
                    rw [← hsplit]; exact hnA
                  rw [List.getElem?_append, if_pos (by omega : nA < p1.length)] at h2
                  exact mem_of_getElem? h2
                have := hpref A hAin
                rw [hready] at this
                exact Bool.noConfusion this
              by_cases hjA : j = A
              · subst hjA
                have hfresh : ∀ jj ∈ p1 ++ p2, jj.uuid ≠ j.uuid :=
                  removed_uuid_fresh hpnodup hsplit
                cases hres : resolveArgs (envOf st) j.args with
                | none =>
                    simp only [runSched, hB, hR, execJob, hres] at hrun
                    rcases runSched_trace_mono _ _ hrun with ⟨ext, ht⟩
                    have ht' : t = st.trace ++
                        (Event.start j.uuid j.index :: ext) := by
                      rw [ht]; simp [stFail]
                    rcases Nat.eq_or_lt_of_le hlen with heq | hlt
                    · exfalso
                      have hslot := slotA ht'
                      rw [heq, hp] at hslot
                      simp only [Option.some.injEq, Event.start.injEq] at hslot
                      exact hABu hslot.1.symm
                    · constructor
                      · exact ⟨st.trace.length, Nat.le_refl _, by omega, slotA ht'⟩
                      · intro q2 hq2 hq2v
                        rcases Nat.eq_or_lt_of_le hq2 with heq2 | hlt2
                        · exfalso
                          have hslot := slotA ht'
                          rw [heq2, hq2v] at hslot
                          simp at hslot
                        · exfalso
                          refine runSched_no_foreign_events _ _
                            (fun jj hjj => hfresh jj hjj) hrun q2 ?_ _ hq2v rfl
                          simp only [stFail, List.length_append, List.length_singleton]
                          omega
                | some vals =>
                    cases hfn : j.fn.run vals with
                    | none =>
                        simp only [runSched, hB, hR, execJob, hres, hfn] at hrun
                        rcases runSched_trace_mono _ _ hrun with ⟨ext, ht⟩
                        have ht' : t = st.trace ++
                            (Event.start j.uuid j.index :: ext) := by
                          rw [ht]; simp [stFail]
                        rcases Nat.eq_or_lt_of_le hlen with heq | hlt
                        · exfalso
                          have hslot := slotA ht'
                          rw [heq, hp] at hslot
                          simp only [Option.some.injEq, Event.start.injEq] at hslot
                          exact hABu hslot.1.symm
                        · constructor
                          · exact ⟨st.trace.length, Nat.le_refl _, by omega, slotA ht'⟩
                          · intro q2 hq2 hq2v
                            rcases Nat.eq_or_lt_of_le hq2 with heq2 | hlt2
                            · exfalso
                              have hslot := slotA ht'
                              rw [heq2, hq2v] at hslot
                              simp at hslot
                            · exfalso
                              refine runSched_no_foreign_events _ _
                                (fun jj hjj => hfresh jj hjj) hrun q2 ?_ _ hq2v rfl
                              simp only [stFail, List.length_append,
                                List.length_singleton]
                              omega
                    | some resp =>
                        cases hstop : resp.stopJobflow with
                        | true =>
                            simp only [runSched, hB, hR, execJob, hres, hfn,
                              hstop] at hrun
                            simp only [Except.ok.injEq, Prod.mk.injEq] at hrun
                            have ht' : t = st.trace ++
                                (Event.start j.uuid j.index ::
                                  Event.finish j.uuid j.index :: []) := by
                              rw [← hrun.2.2, drain_trace]; simp [stSucc]
                            exfalso
                            rcases Nat.eq_or_lt_of_le hlen with heq | hlt
                            · have hslot := slotA ht'
                              rw [heq, hp] at hslot
                              simp only [Option.some.injEq, Event.start.injEq] at hslot
                              exact hABu hslot.1.symm
                            · rcases Nat.eq_or_lt_of_le hlt with heq2 | hlt2
                              · have hslot := slotB ht'
                                have hpp : p = st.trace.length + 1 := by omega
                                rw [hpp, hslot] at hp
                                simp at hp
                              · have htl : t.length = st.trace.length + 2 := by
                                  rw [ht']; simp
                                rw [List.getElem?_eq_none (by omega)] at hp
                                exact Option.noConfusion hp
                        | false =>
                            simp only [runSched, hB, hR, execJob, hres, hfn,
                              hstop] at hrun
                            rcases runSched_trace_mono _ _ hrun with ⟨ext, ht⟩
                            have ht' : t = st.trace ++
                                (Event.start j.uuid j.index ::
                                  Event.finish j.uuid j.index :: ext) := by
                              rw [ht]; simp [stSucc]
                            rcases Nat.eq_or_lt_of_le hlen with heq | hlt
                            · exfalso
                              have hslot := slotA ht'
                              rw [heq, hp] at hslot
                              simp only [Option.some.injEq, Event.start.injEq] at hslot
                              exact hABu hslot.1.symm
                            · rcases Nat.eq_or_lt_of_le hlt with heq2 | hlt2
                              · exfalso
                                have hslot := slotB ht'
                                have hpp : p = st.trace.length + 1 := by omega
                                rw [hpp, hslot] at hp
                                simp at hp
                              · constructor
                                · exact ⟨st.trace.length, Nat.le_refl _, by omega,
                                    slotA ht'⟩
                                · intro q2 hq2 hq2v
                                  rcases Nat.eq_or_lt_of_le hq2 with heq3 | hlt3
                                  · exfalso
                                    have hslot := slotA ht'
                                    rw [heq3, hq2v] at hslot
                                    simp at hslot
                                  · rcases Nat.eq_or_lt_of_le hlt3 with heq4 | hlt4
                                    · omega
                                    · exfalso
                                      refine runSched_no_foreign_events _ _
                                        (fun jj hjj => hfresh jj hjj) hrun q2 ?_ _
                                        hq2v rfl
                                      simp only [stSucc, List.length_append]
                                      simp
                                      omega
              · -- j is neither A nor B: recurse with adjusted positions
                have hsA : (p1 ++ j :: p2)[nA]? = some A := by
                  rw [← hsplit]; exact hnA
                have hsB : (p1 ++ j :: p2)[nB]? = some B := by
                  rw [← hsplit]; exact hnB
                rcases pos_remove hsA (fun h => hjA (h.symm)) with ⟨hnAne, hAlt, hAgt⟩
                rcases pos_remove hsB (fun h => hjB (h.symm)) with ⟨hnBne, hBlt, hBgt⟩
                have hposj : st.pending[p1.length]? = some j := by
                  rw [hsplit]; exact getElem?_middle p1 j p2
                have hjAu : j.uuid ≠ A.uuid :=
                  nodup_uuid_ne hpnodup hposj hnA (fun h => hnAne h.symm)
                have hjBu : j.uuid ≠ B.uuid :=
                  nodup_uuid_ne hpnodup hposj hnB (fun h => hnBne h.symm)
                have happly : ∀ (st2 : RunState), SchedInv jobs0 store0 st2 →
                    st2.pending = p1 ++ p2 →
                    (∀ u ∈ st.doneU, u ∈ st2.doneU) →
                    (∀ u ∈ st2.badU, u = j.uuid ∨ u ∈ st.badU) →
                    runSched fuel st2 = Except.ok (r, s', t) →
                    ∀ p2i : Nat, st2.trace.length ≤ p2i →
                    t[p2i]? = some (Event.start B.uuid B.index) →
                    (∃ q : Nat, st2.trace.length ≤ q ∧ q < p2i ∧
                      t[q]? = some (Event.start A.uuid A.index)) ∧
                    (∀ q2 : Nat, st2.trace.length ≤ q2 →
                      t[q2]? = some (Event.finish A.uuid A.index) → q2 < p2i) := by
                  intro st2 hInv2 hpend2 hdone2 hbad2 hrun2 p2i hp2l hp2v
                  have hru := ready_unblocked_step hInv hsplit hready hnblk
                    st2 hpend2 hdone2 hbad2
                  have hA2 : ∀ (nA2 nB2 : Nat), nA2 < nB2 →
                      (p1 ++ p2)[nA2]? = some A → (p1 ++ p2)[nB2]? = some B →
                      (∃ q : Nat, st2.trace.length ≤ q ∧ q < p2i ∧
                        t[q]? = some (Event.start A.uuid A.index)) ∧
                      (∀ q2 : Nat, st2.trace.length ≤ q2 →
                        t[q2]? = some (Event.finish A.uuid A.index) → q2 < p2i) := by
                    intro nA2 nB2 ho2 hA2v hB2v
                    refine ih _ hInv2 nA2 nB2 ho2 ?_ ?_ hru.1 hru.2 hrun2 p2i hp2l hp2v
                    · rw [hpend2]; exact hA2v
                    · rw [hpend2]; exact hB2v
                  by_cases hA1 : nA < p1.length
                  · by_cases hB1 : nB < p1.length
                    · exact hA2 nA nB horder (hAlt hA1) (hBlt hB1)
                    · exact hA2 nA (nB - 1) (by omega) (hAlt hA1) (hBgt (by omega))
                  · exact hA2 (nA - 1) (nB - 1) (by omega) (hAgt (by omega))
                      (hBgt (by omega))
                cases hres : resolveArgs (envOf st) j.args with
                | none =>
                    simp only [runSched, hB, hR, execJob, hres] at hrun
                    rcases runSched_trace_mono _ _ hrun with ⟨ext, ht⟩
                    have ht' : t = st.trace ++
                        (Event.start j.uuid j.index :: ext) := by
                      rw [ht]; simp [stFail]
                    rcases Nat.eq_or_lt_of_le hlen with heq | hlt
                    · exfalso
                      have hslot := slotA ht'
                      rw [heq, hp] at hslot
                      simp only [Option.some.injEq, Event.start.injEq] at hslot
                      exact hjBu hslot.1.symm
                    · have hres2 := happly (stFail st j (p1 ++ p2))
                        (schedInv_stFail hInv hsplit) rfl (fun u hu => hu)
                        bad_stFail hrun p
                        (by simp only [stFail, List.length_append,
                          List.length_singleton]; omega) hp
                      constructor
                      · rcases hres2.1 with ⟨q, hql, hqp, hqv⟩
                        refine ⟨q, ?_, hqp, hqv⟩
                        simp only [stFail, List.length_append,
                          List.length_singleton] at hql
                        omega
                      · intro q2 hq2 hq2v
                        rcases Nat.eq_or_lt_of_le hq2 with heq2 | hlt2
                        · exfalso
                          have hslot := slotA ht'
                          rw [heq2, hq2v] at hslot
                          simp at hslot
                        · refine hres2.2 q2 ?_ hq2v
                          simp only [stFail, List.length_append,
                            List.length_singleton]
                          omega
                | some vals =>
                    cases hfn : j.fn.run vals with
                    | none =>
                        simp only [runSched, hB, hR, execJob, hres, hfn] at hrun
                        rcases runSched_trace_mono _ _ hrun with ⟨ext, ht⟩
                        have ht' : t = st.trace ++
                            (Event.start j.uuid j.index :: ext) := by
                          rw [ht]; simp [stFail]
                        rcases Nat.eq_or_lt_of_le hlen with heq | hlt
                        · exfalso
                          have hslot := slotA ht'
                          rw [heq, hp] at hslot
                          simp only [Option.some.injEq, Event.start.injEq] at hslot
                          exact hjBu hslot.1.symm
                        · have hres2 := happly (stFail st j (p1 ++ p2))
                            (schedInv_stFail hInv hsplit) rfl (fun u hu => hu)
                            bad_stFail hrun p
                            (by simp only [stFail, List.length_append,
                              List.length_singleton]; omega) hp
                          constructor
                          · rcases hres2.1 with ⟨q, hql, hqp, hqv⟩
                            refine ⟨q, ?_, hqp, hqv⟩
                            simp only [stFail, List.length_append,
                              List.length_singleton] at hql
                            omega
                          · intro q2 hq2 hq2v
                            rcases Nat.eq_or_lt_of_le hq2 with heq2 | hlt2
                            · exfalso
                              have hslot := slotA ht'
                              rw [heq2, hq2v] at hslot
                              simp at hslot
                            · refine hres2.2 q2 ?_ hq2v
                              simp only [stFail, List.length_append,
                                List.length_singleton]
                              omega
                    | some resp =>
                        cases hstop : resp.stopJobflow with
                        | true =>
                            simp only [runSched, hB, hR, execJob, hres, hfn,
                              hstop] at hrun
                            simp only [Except.ok.injEq, Prod.mk.injEq] at hrun
                            have ht' : t = st.trace ++
                                (Event.start j.uuid j.index ::
                                  Event.finish j.uuid j.index :: []) := by
                              rw [← hrun.2.2, drain_trace]; simp [stSucc]
                            exfalso
                            rcases Nat.eq_or_lt_of_le hlen with heq | hlt
                            · have hslot := slotA ht'
                              rw [heq, hp] at hslot
                              simp only [Option.some.injEq, Event.start.injEq] at hslot
                              exact hjBu hslot.1.symm
                            · rcases Nat.eq_or_lt_of_le hlt with heq2 | hlt2
                              · have hslot := slotB ht'
                                have hpp : p = st.trace.length + 1 := by omega
                                rw [hpp, hslot] at hp
                                simp at hp
                              · have htl : t.length = st.trace.length + 2 := by
                                  rw [ht']; simp
                                rw [List.getElem?_eq_none (by omega)] at hp
                                exact Option.noConfusion hp
                        | false =>
                            simp only [runSched, hB, hR, execJob, hres, hfn,
                              hstop] at hrun
                            rcases runSched_trace_mono _ _ hrun with ⟨ext, ht⟩
                            have ht' : t = st.trace ++
                                (Event.start j.uuid j.index ::
                                  Event.finish j.uuid j.index :: ext) := by
                              rw [ht]; simp [stSucc]
                            have hlen2 : (stSucc st j (p1 ++ p2) resp).trace.length =
                                st.trace.length + 2 := by
                              simp only [stSucc, List.length_append]
                              simp
                            rcases Nat.eq_or_lt_of_le hlen with heq | hlt
                            · exfalso
                              have hslot := slotA ht'
                              rw [heq, hp] at hslot
                              simp only [Option.some.injEq, Event.start.injEq] at hslot
                              exact hjBu hslot.1.symm
                            · rcases Nat.eq_or_lt_of_le hlt with heq2 | hlt2
                              · exfalso
                                have hslot := slotB ht'
                                have hpp : p = st.trace.length + 1 := by omega
                                rw [hpp, hslot] at hp
                                simp at hp
                              · have hres2 := happly (stSucc st j (p1 ++ p2) resp)
                                  (schedInv_stSucc hInv hsplit) rfl
                                  (fun u hu => List.mem_cons_of_mem _ hu)
                                  bad_stSucc hrun p (by omega) hp
                                constructor
                                · rcases hres2.1 with ⟨q, hql, hqp, hqv⟩
                                  rw [hlen2] at hql
                                  exact ⟨q, by omega, hqp, hqv⟩
                                · intro q2 hq2 hq2v
                                  rcases Nat.eq_or_lt_of_le hq2 with heq3 | hlt3
                                  · exfalso
                                    have hslot := slotA ht'
                                    rw [heq3, hq2v] at hslot
                                    simp at hslot
                                  · rcases Nat.eq_or_lt_of_le hlt3 with heq4 | hlt4
                                    · exfalso
                                      have hslot := slotB ht'
                                      have hqq : q2 = st.trace.length + 1 := by omega
                                      rw [hqq, hslot] at hq2v
                                      simp only [Option.some.injEq,
                                        Event.finish.injEq] at hq2v
                                      exact hjAu hq2v.1
                                    · refine hres2.2 q2 ?_ hq2v
                                      omega
          | none =>
              simp only [runSched, hB, hR] at hrun
              by_cases hemp : st.pending.isEmpty
              · rw [if_pos hemp] at hrun
                simp only [Except.ok.injEq, Prod.mk.injEq] at hrun
                rw [← hrun.2.2] at hp
                rw [List.getElem?_eq_none hlen] at hp
                exact Option.noConfusion hp
              · rw [if_neg hemp] at hrun
                simp at hrun

/-- Counterexample to C4 as stated: the claim asserts that for EVERY pair of
independent Jobs the earlier-inserted one starts first.  In the flow
[c4A, c4C, c4X], c4A is inserted before c4C and the two are mutually
independent (no dependency path in either direction), yet c4C starts at log
position 0 while c4A — not ready until c4X completes — starts only at
position 4: the earlier-inserted Job starts strictly later. -/
theorem insertion_order_counterexample :
    run_locally c4flow none = Except.ok
      ([(42, 1, Outcome.done ⟨Val.vint 2, false, false⟩),
        (43, 1, Outcome.done ⟨Val.vint 3, false, false⟩),
        (41, 1, Outcome.done ⟨Val.vint 1, false, false⟩)],
       ⟨[⟨41, 1, Val.vint 1⟩, ⟨43, 1, Val.vint 3⟩, ⟨42, 1, Val.vint 2⟩], [], 0⟩,
       c4t) ∧
    c4flow.allJobs = [c4A, c4C, c4X] ∧
    (¬ Downstream c4flow.allJobs c4A c4C) ∧
    (¬ Downstream c4flow.allJobs c4C c4A) ∧
    c4t[0]? = some (Event.start c4C.uuid c4C.index) ∧
    c4t[4]? = some (Event.start c4A.uuid c4A.index) ∧
    (∀ p : Nat, p < 4 → c4t[p]? ≠ some (Event.start c4A.uuid c4A.index)) := by
  have hnoneA : ∀ b, ¬ Downstream c4flow.allJobs c4A b := by
    intro b h
    induction h with
    | direct b hm href =>
        simp only [c4flow, Flow.allJobs, allJobsChildren, List.mem_cons,
          List.not_mem_nil, or_false] at hm
        rcases hm with rfl | rfl | rfl <;>
          simp [argUuids, refUuidsList, refUuids, c4A, c4C, c4X] at href
    | step bMid c hD hm href ihD => exact ihD
  have hnoneC : ∀ b, ¬ Downstream c4flow.allJobs c4C b := by
    intro b h
    induction h with
    | direct b hm href =>
        simp only [c4flow, Flow.allJobs, allJobsChildren, List.mem_cons,
          List.not_mem_nil, or_false] at hm
        rcases hm with rfl | rfl | rfl <;>
          simp [argUuids, refUuidsList, refUuids, c4A, c4C, c4X] at href
    | step bMid c hD hm href ihD => exact ihD
  refine ⟨by rfl, by rfl, hnoneA c4C, hnoneC c4A, by rfl, by rfl, ?_⟩
  intro p hp
  interval_cases p <;> simp [c4t, c4A]

/-- C4 (amended): whenever two mutually independent Jobs are simultaneously
ready and unblocked in a scheduler state — the earlier-inserted Job A being
ready at the moment both are pending — the sequential scheduler executes
them in insertion order: wherever the later-inserted Job B starts in the
rest of the log, A has already started strictly earlier, and A's
completion, if logged later, also precedes B's start. -/
theorem ready_insertion_order {jobs0 : List Job} {store0 : JobStore}
    {st : RunState} (hInv : SchedInv jobs0 store0 st)
    {A B : Job} {l1 l2 l3 : List Job}
    (hsplit : st.pending = l1 ++ A :: l2 ++ B :: l3)
    (hindep1 : ¬ Downstream st.pending A B) (hindep2 : ¬ Downstream st.pending B A)
    (hready : isReadyB st A = true) (hnblk : blockedB st A = false)
    {fuel : Nat} {r : List (Nat × Nat × Outcome)} {s' : JobStore} {t : List Event}
    (hrun : runSched fuel st = Except.ok (r, s', t)) :
    ∀ p : Nat, st.trace.length ≤ p → t[p]? = some (Event.start B.uuid B.index) →
      (∃ q : Nat, st.trace.length ≤ q ∧ q < p ∧
        t[q]? = some (Event.start A.uuid A.index)) ∧
      (∀ q2 : Nat, st.trace.length ≤ q2 →
        t[q2]? = some (Event.finish A.uuid A.index) → q2 < p) := by
  have hassoc : st.pending = l1 ++ A :: (l2 ++ B :: l3) := by
    rw [hsplit]
    simp
  have hnA : st.pending[l1.length]? = some A := by
    rw [hassoc]
    exact getElem?_middle l1 A (l2 ++ B :: l3)
  have hnB : st.pending[(l1 ++ A :: l2).length]? = some B := by
    rw [hsplit]
    exact getElem?_middle (l1 ++ A :: l2) B l3
  have horder : l1.length < (l1 ++ A :: l2).length := by
    simp only [List.length_append, List.length_cons]
    omega
  exact runSched_ready_first _ _ hInv l1.length (l1 ++ A :: l2).length horder
    hnA hnB hready hnblk hrun

/-- Witness for the amended C4: a state with two independent ready jobs in
insertion order; the earlier one starts at position 0, before the later
one's start at position 2. -/
theorem ready_insertion_order_w :
    ∃ q : Nat, (initState [w4a, w4b] emptyStore).trace.length ≤ q ∧ q < 2 ∧
      [Event.start 51 1, Event.finish 51 1, Event.start 52 1,
        Event.finish 52 1][q]? = some (Event.start 51 1) := by
  have h := ready_insertion_order
    (schedInv_init [w4a, w4b] emptyStore (by decide))
    (show (initState [w4a, w4b] emptyStore).pending =
      ([] : List Job) ++ w4a :: ([] : List Job) ++ w4b :: ([] : List Job)
      by rfl)
    (by intro h
        cases h with
        | direct _ _ href => simp [argUuids, refUuidsList, w4b] at href
        | step _ _ _ _ href => simp [argUuids, refUuidsList, w4b] at href)
    (by intro h
        cases h with
        | direct _ _ href => simp [argUuids, refUuidsList, w4a] at href
        | step _ _ _ _ href => simp [argUuids, refUuidsList, w4a] at href)
    (by rfl) (by rfl)
    (show runSched 2 (initState [w4a, w4b] emptyStore) = Except.ok
      ([(51, 1, Outcome.done ⟨Val.vint 1, false, false⟩),
        (52, 1, Outcome.done ⟨Val.vint 2, false, false⟩)],
       (⟨[⟨52, 1, Val.vint 2⟩, ⟨51, 1, Val.vint 1⟩], [], 0⟩ : JobStore),
       [Event.start 51 1, Event.finish 51 1, Event.start 52 1,
        Event.finish 52 1])
      by rfl) 2 (by simp [initState]) (by rfl)
  exact h.1

/-! ### Flow.add: exclusive ownership and the no-cycles guarantee (C9) -/

theorem noDeps_spec {l : List Job} {j : Job} :
    noDeps l j = true ↔ ∀ a ∈ l, a.uuid = j.uuid ∨ a.uuid ∉ argUuids j := by
  simp [noDeps, List.all_eq_true]

theorem noDeps_no_edge {l : List Job} {j : Job} (h : noDeps l j = true) :
    ∀ b, ¬ Edge l j b := by
  intro b hE
  rcases hE with ⟨hjl, hbl, hmem, hne⟩
  rcases noDeps_spec.mp h b hbl with h2 | h2
  · exact hne h2
  · exact h2 hmem

theorem no_cycle_nil : ¬ HasCycle ([] : List Job) := by
  rintro ⟨j, h⟩
  cases h with
  | single hE => exact absurd hE.1 (List.not_mem_nil _)
  | tail hTG hE => exact absurd hE.2.1 (List.not_mem_nil _)

theorem transGen_erase {l : List Job} {j0 : Job}
    (hout : ∀ b, ¬ Edge l j0 b) {x y : Job}
    (h : Relation.TransGen (Edge l) x y) :
    x ≠ j0 ∧ (y ≠ j0 → Relation.TransGen (Edge (l.erase j0)) x y) := by
  induction h with
  | single hxy =>
      have hx : x ≠ j0 := by
        intro heq
        exact hout _ (heq ▸ hxy)
      refine ⟨hx, ?_⟩
      intro hy
      refine Relation.TransGen.single ?_
      rcases hxy with ⟨hxl, hyl, hmem, hne⟩
      exact ⟨(List.mem_erase_of_ne hx).mpr hxl, (List.mem_erase_of_ne hy).mpr hyl,
        hmem, hne⟩
  | tail hxb hby ih =>
      rename_i b c
      have hb : b ≠ j0 := by
        intro heq
        exact hout _ (heq ▸ hby)
      refine ⟨ih.1, ?_⟩
      intro hy
      refine Relation.TransGen.tail (ih.2 hb) ?_
      rcases hby with ⟨hbl, hcl, hmem, hne⟩
      exact ⟨(List.mem_erase_of_ne hb).mpr hbl, (List.mem_erase_of_ne hy).mpr hcl,
        hmem, hne⟩

theorem hasCycle_erase {l : List Job} {j0 : Job} (hout : ∀ b, ¬ Edge l j0 b)
    (h : HasCycle l) : HasCycle (l.erase j0) := by
  rcases h with ⟨j, hTG⟩
  rcases transGen_erase hout hTG with ⟨hj, hres⟩
  exact ⟨j, hres hj⟩

theorem acyclicAux_sound :
    ∀ (fuel : Nat) (l : List Job), acyclicAux fuel l = true → ¬ HasCycle l := by
  intro fuel
  induction fuel with
  | zero =>
      intro l h
      simp only [acyclicAux] at h
      rw [List.isEmpty_iff.mp h]
      exact no_cycle_nil
  | succ fuel ih =>
      intro l h
      cases hfind : l.find? (noDeps l) with
      | none =>
          simp only [acyclicAux, hfind] at h
          rw [List.isEmpty_iff.mp h]
          exact no_cycle_nil
      | some j0 =>
          simp only [acyclicAux, hfind] at h
          have hout := noDeps_no_edge (List.find?_some hfind)
          intro hcyc
          exact ih _ h (hasCycle_erase hout hcyc)

theorem hasCycle_of_erase {l : List Job} {j0 : Job}
    (h : HasCycle (l.erase j0)) : HasCycle l := by
  rcases h with ⟨j, hTG⟩
  refine ⟨j, Relation.TransGen.mono ?_ hTG⟩
  intro a b hE
  rcases hE with ⟨hal, hbl, hmem, hne⟩
  exact ⟨List.mem_of_mem_erase hal, List.mem_of_mem_erase hbl, hmem, hne⟩

theorem walk_noDeps :
    ∀ (fuel : Nat) (l : List Job) (seen : List Job) (j : Job),
      ¬ HasCycle l → j ∈ l → seen.Nodup →
      (∀ s ∈ seen, s ∈ l ∧ Relation.TransGen (Edge l) s j) →
      l.length ≤ seen.length + fuel →
      ∃ m ∈ l, noDeps l m = true := by
  intro fuel
  induction fuel with
  | zero =>
      intro l seen j hcyc hj hnd hseen hlen
      exfalso
      have hjseen : j ∉ seen := by
        intro hs
        exact hcyc ⟨j, (hseen j hs).2⟩
      have hnd2 : (j :: seen).Nodup := List.nodup_cons.mpr ⟨hjseen, hnd⟩
      have hsub : (j :: seen) ⊆ l := by
        intro s hs
        rcases List.mem_cons.mp hs with rfl | hs2
        · exact hj
        · exact (hseen s hs2).1
      have := (List.subperm_of_subset hnd2 hsub).length_le
      simp only [List.length_cons] at this
      omega
  | succ fuel ih =>
      intro l seen j hcyc hj hnd hseen hlen
      by_cases hnd0 : noDeps l j = true
      · exact ⟨j, hj, hnd0⟩
      · have hex : ∃ b ∈ l, b.uuid ≠ j.uuid ∧ b.uuid ∈ argUuids j := by
          by_contra hcon
          apply hnd0
          rw [noDeps_spec]
          intro a ha
          by_cases h1 : a.uuid = j.uuid
          · exact Or.inl h1
          · refine Or.inr ?_
            intro h2
            exact hcon ⟨a, ha, h1, h2⟩
        rcases hex with ⟨b, hbl, hbne, hbmem⟩
        have hEdge : Edge l j b := ⟨hj, hbl, hbmem, hbne⟩
        have hjseen : j ∉ seen := by
          intro hs
          exact hcyc ⟨j, (hseen j hs).2⟩
        have hbseen : b ∉ seen := by
          intro hs
          exact hcyc ⟨b, Relation.TransGen.tail (hseen b hs).2 hEdge⟩
        refine ih l (j :: seen) b hcyc hbl (List.nodup_cons.mpr ⟨hjseen, hnd⟩) ?_ ?_
        · intro s hs
          rcases List.mem_cons.mp hs with rfl | hs2
          · exact ⟨hj, Relation.TransGen.single hEdge⟩
          · exact ⟨(hseen s hs2).1, Relation.TransGen.tail (hseen s hs2).2 hEdge⟩
        · simp only [List.length_cons]
          omega

theorem acyclicAux_complete :
    ∀ (fuel : Nat) (l : List Job), ¬ HasCycle l → l.length ≤ fuel →
      acyclicAux fuel l = true := by
  intro fuel
  induction fuel with
  | zero =>
      intro l _ hlen
      have : l = [] := List.length_eq_zero.mp (by omega)
      subst this
      simp [acyclicAux]
  | succ fuel ih =>
      intro l hcyc hlen
      rcases hl : l with _ | ⟨x, xs⟩
      · simp [acyclicAux]
      · rw [← hl]
        have hxl : x ∈ l := by rw [hl]; exact List.mem_cons_self _ _
        rcases walk_noDeps l.length l [] x hcyc hxl List.nodup_nil
          (by intro s hs; simp at hs) (by simp) with ⟨m, hm, hmnd⟩
        have hsome : (l.find? (noDeps l)).isSome := by
          rw [List.find?_isSome]
          exact ⟨m, hm, hmnd⟩
        rcases Option.isSome_iff_exists.mp hsome with ⟨j0, hj0⟩
        simp only [acyclicAux, hj0]
        refine ih _ ?_ ?_
        · intro hc
          exact hcyc (hasCycle_of_erase hc)
        · have := List.length_erase_of_mem (List.mem_of_find?_eq_some hj0)
          have hpos : 0 < l.length := by rw [hl]; simp
          omega

theorem acyclicB_iff (l : List Job) : acyclicB l = true ↔ ¬ HasCycle l := by
  constructor
  · exact acyclicAux_sound l.length l
  · intro h
    exact acyclicAux_complete l.length l h (Nat.le_refl _)

/-- C9: `Flow.add` fails when the child already has a parent; for a
parentless child it appends the child (recording ownership) exactly when the
resulting job list passes the acyclicity check, and fails with the cycle
error otherwise; and the acyclicity check holds precisely when the induced
job-dependency graph has no cycle — so a successful add keeps the graph
acyclic and an add that would introduce a cycle is rejected. -/
theorem flow_add_contract (f : Flow) (c : FlowChild) (l : List Job) :
    (hasParentC c = true → f.add c = Except.error JFError.graphHasParent) ∧
    (hasParentC c = false → acyclicB (f.withChild c).allJobs = true →
      f.add c = Except.ok (f.withChild c)) ∧
    (hasParentC c = false → acyclicB (f.withChild c).allJobs = false →
      f.add c = Except.error JFError.graphCycle) ∧
    (acyclicB l = true ↔ ¬ HasCycle l) := by
  refine ⟨?_, ?_, ?_, acyclicB_iff l⟩
  · intro hp
    simp [Flow.add, hp]
  · intro hp hac
    simp [Flow.add, hp, hac]
  · intro hp hac
    simp [Flow.add, hp, hac]

/-- Witness for C9: a parentless dependent child is appended successfully; a
child that already has a parent is rejected; a child closing a reference
cycle is rejected with the cycle error. -/
theorem flow_add_contract_w :
    (Flow.mk 500 none [FlowChild.jobC w9a]).add (FlowChild.jobC w9b) =
      Except.ok ((Flow.mk 500 none [FlowChild.jobC w9a]).withChild
        (FlowChild.jobC w9b)) ∧
    (Flow.mk 500 none []).add (FlowChild.jobC w9parented) =
      Except.error JFError.graphHasParent ∧
    (Flow.mk 501 none [FlowChild.jobC w9c1]).add (FlowChild.jobC w9c2) =
      Except.error JFError.graphCycle := by
  refine ⟨?_, ?_, ?_⟩
  · exact (flow_add_contract (Flow.mk 500 none [FlowChild.jobC w9a])
      (FlowChild.jobC w9b) []).2.1 (by rfl) (by rfl)
  · exact (flow_add_contract (Flow.mk 500 none [])
      (FlowChild.jobC w9parented) []).1 (by rfl)
  · exact (flow_add_contract (Flow.mk 501 none [FlowChild.jobC w9c1])
      (FlowChild.jobC w9c2) []).2.2.1 (by rfl) (by rfl)

end Jobflow
